import Mathlib

/-!
A shallow embedding of the `gocache` in-memory cache (repository
`arham09/gocache`).  The Go sources embedded here are `gocache.go`
(configuration, constants, statistics), `eviction.go`
(`moveExistingEntryToHead`, `removeExistingEntryReferences`, `evict`),
`frequency.go` (`incrementEntryFrequency`, `removeEntryFromFrequencyList`),
and the unnamed source parts holding `SetWithTTL`/`Set`/`SetAll`,
`Get`/`GetValue`/`GetByKeys`/`GetAll`/`GetKeysByPattern`, and
`Delete`/`DeleteAll`/`DeleteKeysByPattern`/`Count`/`Clear`/`TTL`/`Expire`.

Modelling conventions:
* Go pointers to `Entry` are modelled as numeric ids allocated from a
  counter; the heap is an association list `List (Nat × EntryData)` that
  only grows (Go's garbage collector is invisible to the program).
  Dangling pointers (entries removed from the map but still referenced by
  a frequency bucket — reachable because `Clear` does not reset `freqs`)
  therefore stay readable, exactly as in Go.
* The doubly-linked recency chain is represented by the list of entry ids
  from head to tail.  `head`/`tail` are its first/last elements.  The two
  chain mutators of `eviction.go` translate to list surgery; unlinking an
  entry that is not in the live chain only rewrites pointers of other
  dangling entries and is observably a no-op, which the list model renders
  as `List.erase` of an absent element.
* `container/list` elements of the frequency index are buckets carrying
  their own id (allocated from a counter), modelling Go element identity;
  `Entry.frequencyParent` stores a bucket id.  Calling `InsertAfter` with
  a mark that was removed from the list returns `nil` in Go and the
  subsequent dereference panics; operations that can panic return
  `Option`, `none` meaning the Go code panics (or, for the bounded
  eviction loop, runs forever): the operation does not complete.
* Values are opaque payloads; a payload is represented by the natural
  number that the size estimator assigns to it (the estimator, absent
  from `src/`, is modelled from the spec).  Machine integers (`int64`
  nanosecond instants, durations, byte counts) are modelled as `Int`;
  the monotone statistics counters (`uint64`) as `Nat`.
* Wall-clock reads (`time.Now()`) are modelled by passing the current
  instant `now : Int` (nanoseconds) to each operation.
-/

/-- `NoExpiration` from `gocache.go`: the TTL sentinel meaning the key
never expires. -/
def NoExpiration : Int := -1

/-- `NoMaxSize` from `gocache.go`: no bound on the number of entries. -/
def NoMaxSize : Nat := 0

/-- `NoMaxMemoryUsage` from `gocache.go`: memory-bound eviction disabled. -/
def NoMaxMemoryUsage : Nat := 0

/-- `DefaultMaxSize` from `gocache.go`. -/
def DefaultMaxSize : Nat := 100000

/-- The eviction policies (`EvictionPolicy` is declared outside `src/`;
its three values appear throughout the sources). -/
inductive EvictionPolicy where
  | FirstInFirstOut
  | LeastRecentlyUsed
  | LeastFrequentUsed
deriving DecidableEq, Repr

/-- The data carried by one cache entry (`Entry`, declared outside
`src/`; fields reconstructed from their uses in `src/` and §3 of the
spec): key, opaque value (represented by its estimated payload size),
creation/update instant, absolute expiration instant or `NoExpiration`,
and the id of the LFU bucket holding the entry, if any.  The recency
neighbours `previous`/`next` are represented by the chain list of the
cache state rather than stored per entry. -/
structure EntryData where
  key : String
  value : Nat
  relevantTimestamp : Int
  expiration : Int
  frequencyParent : Option Nat
deriving DecidableEq, Repr

/-- One `FrequencyItem` of `frequency.go` together with the identity of
the `container/list` element holding it: access count `freq` and the set
of member entries (`Entries map[*Entry]byte`) as a duplicate-free list of
entry ids. -/
structure Bucket where
  bid : Nat
  freq : Nat
  items : List Nat
deriving DecidableEq, Repr

/-- `Statistics`: the four monotone counters. -/
structure Statistics where
  evictedKeys : Nat := 0
  expiredKeys : Nat := 0
  hits : Nat := 0
  misses : Nat := 0
deriving DecidableEq, Repr

/-- The cache state (`Cache` of `gocache.go`).  `entries` is the primary
map key → entry id; `heap` the allocated entries by id; `chain` the
recency chain from head to tail; `freqs` the frequency index from front
to back.  `nextEntryId`/`nextBucketId` are the allocation counters of the
pointer model. -/
structure Cache where
  maxSize : Nat
  maxMemoryUsage : Nat
  evictionPolicy : EvictionPolicy
  stats : Statistics
  entries : List (String × Nat)
  heap : List (Nat × EntryData)
  chain : List Nat
  freqs : List Bucket
  memoryUsage : Int
  nextEntryId : Nat
  nextBucketId : Nat
deriving DecidableEq, Repr

/-- `NewCache` composed with the `WithMaxSize`, `WithMaxMemoryUsage` and
`WithEvictionPolicy` options of `gocache.go` (negative arguments are
clamped to the sentinels by the options, so the bounds are naturals). -/
def newCache (policy : EvictionPolicy) (maxSize : Nat := DefaultMaxSize)
    (maxMemoryUsage : Nat := NoMaxMemoryUsage) : Cache :=
  { maxSize := maxSize
    maxMemoryUsage := maxMemoryUsage
    evictionPolicy := policy
    stats := {}
    entries := []
    heap := []
    chain := []
    freqs := []
    memoryUsage := 0
    nextEntryId := 0
    nextBucketId := 0 }

/-- Heap read: dereference an entry pointer.  The default is never
reached for ids handed out by the allocator (every id stored in the map,
chain or a bucket is backed by the heap). -/
def heapGet (c : Cache) (id : Nat) : EntryData :=
  ((c.heap.find? (fun p => p.1 == id)).map Prod.snd).getD
    { key := "", value := 0, relevantTimestamp := 0, expiration := 0,
      frequencyParent := none }

/-- Heap write: mutate the entry behind a pointer. -/
def heapSet (c : Cache) (id : Nat) (e : EntryData) : Cache :=
  { c with heap := c.heap.map (fun p => if p.1 == id then (id, e) else p) }

/-- `Cache.get` (the unlocked point lookup): the primary map read
`c.entries[key]`. -/
def lookupKey (c : Cache) (key : String) : Option Nat :=
  (c.entries.find? (fun p => p.1 == key)).map Prod.snd

/-- Modelled from the spec (§4.2): the size estimator `Entry.SizeInBytes`
is not under `src/`.  The opaque payload is represented by its estimated
byte cost, and the key's estimated size (its length) contributes to the
entry's total, as §4.2 requires.  Deterministic by construction. -/
def sizeInBytes (e : EntryData) : Nat :=
  e.key.length + e.value

/-- Modelled from the spec (§3): `Entry.Expired` is not under `src/`.
An entry is expired when its expiration is not the `NoExpiration`
sentinel and the current instant lies strictly after it. -/
def entryExpired (e : EntryData) (now : Int) : Bool :=
  e.expiration != NoExpiration && now > e.expiration

/-- Modelled from the spec (§4.1): the glob matcher `MatchPattern` is not
under `src/`.  `*` matches any run including the empty one, `?` exactly
one character, everything else literally. -/
def matchGlob : List Char → List Char → Bool
  | [], [] => true
  | '*' :: p, [] => matchGlob p []
  | '*' :: p, ch :: s => matchGlob p (ch :: s) || matchGlob ('*' :: p) s
  | '?' :: p, _ :: s => matchGlob p s
  | '?' :: _, [] => false
  | a :: p, ch :: s => a == ch && matchGlob p s
  | _ :: _, [] => false
  | [], _ :: _ => false
termination_by p s => (p.length, s.length)

/-- `MatchPattern pattern key`. -/
def MatchPattern (pattern key : String) : Bool :=
  matchGlob pattern.toList key.toList

/-- `removeExistingEntryReferences` of `eviction.go`: detach an entry
from the recency chain, fixing neighbours, head and tail.  In the list
model this is erasure of the id (erasing an id that is not on the live
chain only rewrites pointers of dangling entries, which the model elides). -/
def removeExistingEntryReferences (c : Cache) (id : Nat) : Cache :=
  { c with chain := c.chain.erase id }

/-- `moveExistingEntryToHead` of `eviction.go`: when the entry is not the
sole element, detach it, then (unless it already became head) link it at
head.  In the list model: the singleton chain is left alone, otherwise
the id is erased and consed at the front. -/
def moveExistingEntryToHead (c : Cache) (id : Nat) : Cache :=
  if c.chain = [id] then c
  else
    let c := removeExistingEntryReferences c id
    { c with chain := id :: c.chain }

/-- The effect of `removeEntryFromFrequencyList` on the frequency index:
delete the entry from the set of the bucket with identity `bid`, dropping
that bucket from the index if its set empties. -/
def removeFreqList (bid id : Nat) (freqs : List Bucket) : List Bucket :=
  (freqs.map
    (fun b => if b.bid == bid then { b with items := b.items.erase id } else b)).filter
      (fun b => !(b.bid == bid && b.items.isEmpty))

/-- `removeEntryFromFrequencyList` of `frequency.go`.  When `bid` is no
longer on the index (a removed `container/list` element), Go mutates the
orphaned `FrequencyItem` and `Remove` is a no-op, so the model leaves the
state unchanged. -/
def removeEntryFromFrequencyList (c : Cache) (bid : Nat) (id : Nat) : Cache :=
  { c with freqs := removeFreqList bid id c.freqs }

/-- The successor of the `container/list` element with identity `bid`
(`Element.Next()` on the frequency index). -/
def nextOfBid (bid : Nat) : List Bucket → Option Bucket
  | [] => none
  | b :: bs => if b.bid == bid then bs.head? else nextOfBid bid bs

/-- `list.InsertAfter nb mark` where `mark` is the element with identity
`bid` (the caller has checked the mark is on the list). -/
def insertAfterBid (bid : Nat) (nb : Bucket) : List Bucket → List Bucket
  | [] => []
  | b :: bs => if b.bid == bid then b :: nb :: bs else b :: insertAfterBid bid nb bs

/-- `FrequencyItem.Entries[entry] = 1` on the bucket with identity `bid`:
set insertion into that bucket's entry set. -/
def addToBid (bid : Nat) (id : Nat) (freqs : List Bucket) : List Bucket :=
  freqs.map (fun b => if b.bid == bid then { b with items := b.items.insert id } else b)

/-- `incrementEntryFrequency` of `frequency.go`.  `none` models the Go
panic: when the entry's `frequencyParent` element was removed from the
index, `Next()` yields `nil`, a fresh bucket has to be spliced in, and
`InsertAfter` with the removed mark returns `nil`, so the following
dereference panics. -/
def incrementEntryFrequency (c : Cache) (id : Nat) : Option Cache :=
  let e := heapGet c id
  match e.frequencyParent with
  | none =>
    -- no current bucket: target frequency 1, candidate bucket = front
    match c.freqs.head? with
    | some b =>
      if b.freq == 1 then
        let c := heapSet c id { e with frequencyParent := some b.bid }
        some { c with freqs := addToBid b.bid id c.freqs }
      else
        -- new bucket with count 1 pushed at the front of the index
        let nb : Bucket := { bid := c.nextBucketId, freq := 1, items := [id] }
        let c := heapSet c id { e with frequencyParent := some nb.bid }
        some { c with freqs := nb :: c.freqs, nextBucketId := c.nextBucketId + 1 }
    | none =>
      let nb : Bucket := { bid := c.nextBucketId, freq := 1, items := [id] }
      let c := heapSet c id { e with frequencyParent := some nb.bid }
      some { c with freqs := nb :: c.freqs, nextBucketId := c.nextBucketId + 1 }
  | some pbid =>
    match c.freqs.find? (fun b => b.bid == pbid) with
    | none => none  -- Go: InsertAfter on a removed mark returns nil; panic
    | some cur =>
      let amount := cur.freq + 1
      match nextOfBid pbid c.freqs with
      | some nxt =>
        if nxt.freq == amount then
          let c := heapSet c id { e with frequencyParent := some nxt.bid }
          let c := { c with freqs := addToBid nxt.bid id c.freqs }
          some (removeEntryFromFrequencyList c pbid id)
        else
          let nb : Bucket := { bid := c.nextBucketId, freq := amount, items := [id] }
          let c := heapSet c id { e with frequencyParent := some nb.bid }
          let c := { c with
            freqs := insertAfterBid pbid nb c.freqs,
            nextBucketId := c.nextBucketId + 1 }
          some (removeEntryFromFrequencyList c pbid id)
      | none =>
        let nb : Bucket := { bid := c.nextBucketId, freq := amount, items := [id] }
        let c := heapSet c id { e with frequencyParent := some nb.bid }
        let c := { c with
          freqs := insertAfterBid pbid nb c.freqs,
          nextBucketId := c.nextBucketId + 1 }
        some (removeEntryFromFrequencyList c pbid id)

/-- Remove a key from the primary map (`delete(c.entries, key)`). -/
def mapDelete (c : Cache) (key : String) : Cache :=
  { c with entries := c.entries.filter (fun p => !(p.1 == key)) }

/-- One step of `evict`'s LFU pass: the body of the loop over the front
bucket's entry set, for one member entry. -/
def evictLfuOne (bid : Nat) (c : Cache) (id : Nat) : Cache :=
  let old := heapGet c id
  let c := removeExistingEntryReferences c id
  let c := mapDelete c old.key
  let c := removeEntryFromFrequencyList c bid id
  let c := { c with stats := { c.stats with evictedKeys := c.stats.evictedKeys + 1 } }
  if c.maxMemoryUsage != NoMaxMemoryUsage then
    { c with memoryUsage := c.memoryUsage - (sizeInBytes old : Int) }
  else c

/-- `evict` of `eviction.go`: no-op on an empty chain or map; under LFU,
evict every member of the front frequency bucket (Go ranges over the
`Entries` set; the effect is order-independent, the model folds in list
order) and return; otherwise evict the tail. -/
def evict (c : Cache) : Cache :=
  if c.chain.isEmpty || c.entries.isEmpty then c
  else if c.evictionPolicy = EvictionPolicy.LeastFrequentUsed then
    match c.freqs.head? with
    | some b => b.items.foldl (evictLfuOne b.bid) c
    | none => c
  else
    match c.chain.getLast? with
    | some tailId =>
      let oldTail := heapGet c tailId
      let c := removeExistingEntryReferences c tailId
      let c := mapDelete c oldTail.key
      let c := if c.maxMemoryUsage != NoMaxMemoryUsage then
          { c with memoryUsage := c.memoryUsage - (sizeInBytes oldTail : Int) }
        else c
      { c with stats := { c.stats with evictedKeys := c.stats.evictedKeys + 1 } }
    | none => c

/-- `Cache.delete` (the private, lock-free deletion): adjust memory
accounting, drop the entry from its frequency bucket under LFU (`none`
models the Go nil-dereference panic when the entry has no bucket), detach
it from the chain, and remove the mapping.  Returns whether the key
existed. -/
def deleteKey (c : Cache) (key : String) : Option (Cache × Bool) :=
  match lookupKey c key with
  | none => some (c, false)
  | some id =>
    let e := heapGet c id
    let c1 := if c.maxMemoryUsage != NoMaxMemoryUsage then
        { c with memoryUsage := c.memoryUsage - (sizeInBytes e : Int) }
      else c
    if c.evictionPolicy = EvictionPolicy.LeastFrequentUsed then
      match e.frequencyParent with
      | none => none  -- Go: nil *list.Element dereference
      | some pbid =>
        let c2 := removeEntryFromFrequencyList c1 pbid id
        let c3 := removeExistingEntryReferences c2 id
        some (mapDelete c3 key, true)
    else
      let c2 := removeExistingEntryReferences c1 id
      some (mapDelete c2 key, true)

/-- The memory-bound eviction loop of `SetWithTTL`:
`for c.memoryUsage > c.maxMemoryUsage && len(c.entries) > 0 { c.evict() }`.
Fuel-indexed; `none` means the loop has not exited within the given fuel
(the source loop has no other way out). -/
def memEvictLoop : Nat → Cache → Option Cache
  | 0, c =>
    if c.memoryUsage > (c.maxMemoryUsage : Int) ∧ c.entries ≠ [] then none
    else some c
  | n + 1, c =>
    if c.memoryUsage > (c.maxMemoryUsage : Int) ∧ c.entries ≠ [] then
      memEvictLoop n (evict c)
    else some c

/-- The tail of `SetWithTTL` after the map/chain mutation: set the
expiration, short-circuit when both bounds are disabled, run one `evict`
on size-bound violation, run the memory-bound loop, and finally record an
LFU access against the written entry. -/
def setWithTTLFinish (fuel : Nat) (c : Cache) (id : Nat) (now ttl : Int) :
    Option Cache :=
  let e := heapGet c id
  let c := heapSet c id
    { e with expiration := if ttl != NoExpiration then now + ttl else NoExpiration }
  if c.maxSize = NoMaxSize ∧ c.maxMemoryUsage = NoMaxMemoryUsage then some c
  else
    let c := if c.maxSize ≠ NoMaxSize ∧ c.entries.length > c.maxSize then evict c else c
    let loopResult :=
      if c.maxMemoryUsage ≠ NoMaxMemoryUsage ∧ c.memoryUsage > (c.maxMemoryUsage : Int)
      then memEvictLoop fuel c
      else some c
    match loopResult with
    | none => none
    | some c =>
      if c.evictionPolicy = EvictionPolicy.LeastFrequentUsed then
        incrementEntryFrequency c id
      else some c

/-- `SetWithTTL` of the Set family source part.  The
nil-typed-pointer normalisation of values is invisible in the opaque
payload model.  `none` means the call does not complete (panic, or the
memory eviction loop exceeds the fuel — the source loop then runs
forever). -/
def setWithTTL (fuel : Nat) (c : Cache) (now : Int) (key : String)
    (value : Nat) (ttl : Int) : Option Cache :=
  match lookupKey c key with
  | none =>
    if ttl ≠ NoExpiration ∧ ttl < 1 then some c
    else
      let id := c.nextEntryId
      let e : EntryData :=
        { key := key, value := value, relevantTimestamp := now,
          expiration := 0, frequencyParent := none }
      let c := { c with
        heap := (id, e) :: c.heap
        nextEntryId := id + 1
        chain := id :: c.chain
        entries := (key, id) :: c.entries }
      let c := if c.maxMemoryUsage != NoMaxMemoryUsage then
          { c with memoryUsage := c.memoryUsage + (sizeInBytes e : Int) }
        else c
      setWithTTLFinish fuel c id now ttl
  | some id =>
    if ttl ≠ NoExpiration ∧ ttl < 1 then (deleteKey c key).map Prod.fst
    else
      let old := heapGet c id
      let c := if c.maxMemoryUsage != NoMaxMemoryUsage then
          { c with memoryUsage := c.memoryUsage - (sizeInBytes old : Int) }
        else c
      let upd := { old with value := value, relevantTimestamp := now }
      let c := heapSet c id upd
      let c := if c.maxMemoryUsage != NoMaxMemoryUsage then
          { c with memoryUsage := c.memoryUsage + (sizeInBytes upd : Int) }
        else c
      let c := moveExistingEntryToHead c id
      setWithTTLFinish fuel c id now ttl

/-- `Set key value` = `SetWithTTL key value NoExpiration`. -/
def setOp (fuel : Nat) (c : Cache) (now : Int) (key : String) (value : Nat) :
    Option Cache :=
  setWithTTL fuel c now key value NoExpiration

/-- `SetAll`: a sequence of Sets (Go iterates a map; the model folds the
given association list in order). -/
def setAll (fuel : Nat) (c : Cache) (now : Int) :
    List (String × Nat) → Option Cache
  | [] => some c
  | (k, v) :: rest =>
    match setOp fuel c now k v with
    | none => none
    | some c' => setAll fuel c' now rest

/-- `Get`: miss counting, on-access expiration deletion with expired
counting, hit counting, LRU promotion (after `Accessed()`, modelled from
the spec as refreshing the relevant timestamp), LFU access recording. -/
def getOp (c : Cache) (now : Int) (key : String) :
    Option (Cache × Option Nat) :=
  match lookupKey c key with
  | none =>
    some ({ c with stats := { c.stats with misses := c.stats.misses + 1 } }, none)
  | some id =>
    let e := heapGet c id
    if entryExpired e now then
      let c := { c with stats := { c.stats with expiredKeys := c.stats.expiredKeys + 1 } }
      match deleteKey c key with
      | none => none
      | some (c, _) => some (c, none)
    else
      let c := { c with stats := { c.stats with hits := c.stats.hits + 1 } }
      if c.evictionPolicy = EvictionPolicy.LeastRecentlyUsed then
        let c := heapSet c id { e with relevantTimestamp := now }
        if c.chain.head? = some id then some (c, some e.value)
        else some (moveExistingEntryToHead c id, some e.value)
      else if c.evictionPolicy = EvictionPolicy.LeastFrequentUsed then
        match incrementEntryFrequency c id with
        | none => none
        | some c => some (c, some e.value)
      else some (c, some e.value)

/-- `GetValue`: `Get` discarding the found flag. -/
def getValue (c : Cache) (now : Int) (key : String) :
    Option (Cache × Option Nat) :=
  getOp c now key

/-- `GetByKeys`: one `Get` per requested key, collecting every key in the
result (missing keys map to `none`). -/
def getByKeys (c : Cache) (now : Int) :
    List String → Option (Cache × List (String × Option Nat))
  | [] => some (c, [])
  | k :: rest =>
    match getOp c now k with
    | none => none
    | some (c', v) =>
      match getByKeys c' now rest with
      | none => none
      | some (c'', out) => some (c'', (k, v) :: out)

/-- The iteration of `GetAll` over a snapshot of the primary map:
expired entries are deleted (without touching the expired counter), live
values collected. -/
def getAllGo (now : Int) :
    Cache → List (String × Nat) → List (String × Nat) →
    Option (Cache × List (String × Nat))
  | c, [], acc =>
    some ({ c with stats := { c.stats with hits := c.stats.hits + acc.length } },
      acc.reverse)
  | c, (k, id) :: rest, acc =>
    let e := heapGet c id
    if entryExpired e now then
      match deleteKey c k with
      | none => none
      | some (c', _) => getAllGo now c' rest acc
    else getAllGo now c rest ((k, e.value) :: acc)

/-- `GetAll`: every live entry's key and value; the hits counter grows by
the number of returned entries. -/
def getAll (c : Cache) (now : Int) : Option (Cache × List (String × Nat)) :=
  getAllGo now c c.entries []

/-- The iteration of `GetKeysByPattern`: skip expired entries without
deleting them, collect matching keys, stop at the limit (`0` = unlimited). -/
def getKeysByPatternGo (c : Cache) (now : Int) (pattern : String)
    (limit : Nat) : List (String × Nat) → List String → List String
  | [], acc => acc.reverse
  | (k, id) :: rest, acc =>
    if entryExpired (heapGet c id) now then
      getKeysByPatternGo c now pattern limit rest acc
    else if MatchPattern pattern k then
      let acc := k :: acc
      if limit > 0 ∧ acc.length ≥ limit then acc.reverse
      else getKeysByPatternGo c now pattern limit rest acc
    else getKeysByPatternGo c now pattern limit rest acc

/-- `GetKeysByPattern`: matching keys, no mutation, no access recorded. -/
def getKeysByPattern (c : Cache) (now : Int) (pattern : String)
    (limit : Nat) : List String :=
  getKeysByPatternGo c now pattern limit c.entries []

/-- `Delete` (public): the private deletion under the lock. -/
def deleteOp (c : Cache) (key : String) : Option (Cache × Bool) :=
  deleteKey c key

/-- `DeleteAll`: bulk deletion counting the keys that existed. -/
def deleteAll (c : Cache) : List String → Option (Cache × Nat)
  | [] => some (c, 0)
  | k :: rest =>
    match deleteKey c k with
    | none => none
    | some (c', existed) =>
      match deleteAll c' rest with
      | none => none
      | some (c'', n) => some (c'', if existed then n + 1 else n)

/-- `DeleteKeysByPattern` = `DeleteAll (GetKeysByPattern pattern 0)`. -/
def deleteKeysByPattern (c : Cache) (now : Int) (pattern : String) :
    Option (Cache × Nat) :=
  deleteAll c (getKeysByPattern c now pattern 0)

/-- `Count`: the size of the primary map. -/
def countOp (c : Cache) : Nat :=
  c.entries.length

/-- `Clear`: fresh map, zero memory accounting, absent head and tail.
The frequency index `c.freqs` is left untouched by the source. -/
def clearOp (c : Cache) : Cache :=
  { c with entries := [], memoryUsage := 0, chain := [] }

/-- The error taxonomy surfaced by `TTL`. -/
inductive CacheErr where
  | keyDoesNotExist
  | keyHasNoExpiration
deriving DecidableEq, Repr

/-- `TTL`: remaining time to live, with the key-missing and
no-expiration failures.  Pure: the source only reads under `RLock`. -/
def ttlOp (c : Cache) (now : Int) (key : String) : Except CacheErr Int :=
  match lookupKey c key with
  | none => Except.error CacheErr.keyDoesNotExist
  | some id =>
    let e := heapGet c id
    if e.expiration = NoExpiration then Except.error CacheErr.keyHasNoExpiration
    else
      let timeUntilExpiration := e.expiration - now
      if timeUntilExpiration < 0 then Except.error CacheErr.keyDoesNotExist
      else Except.ok timeUntilExpiration

/-- `Expire`: false on a missing or expired key; otherwise overwrite the
expiration with `now + ttl` (or the sentinel) and return true.  The
source accesses the shared state without taking `c.mutex`. -/
def expireOp (c : Cache) (now : Int) (key : String) (ttl : Int) :
    Cache × Bool :=
  match lookupKey c key with
  | none => (c, false)
  | some id =>
    let e := heapGet c id
    if entryExpired e now then (c, false)
    else
      (heapSet c id
        { e with expiration := if ttl != NoExpiration then now + ttl else NoExpiration },
       true)

/-- `Stats`: a snapshot copy of the counters. -/
def statsOp (c : Cache) : Statistics :=
  c.stats

/-- The public operation surface of the cache core (§4.3). -/
inductive PublicOp where
  | set (key : String) (value : Nat)
  | setWithTTL (key : String) (value : Nat) (ttl : Int)
  | setAll (kvs : List (String × Nat))
  | get (key : String)
  | getValue (key : String)
  | getByKeys (keys : List String)
  | getAll
  | getKeysByPattern (pattern : String) (limit : Nat)
  | delete (key : String)
  | deleteAll (keys : List String)
  | deleteKeysByPattern (pattern : String)
  | count
  | clear
  | ttl (key : String)
  | expire (key : String) (d : Int)
  | stats
deriving DecidableEq, Repr

/-- The state transition of one completed public operation: `none` when
the operation does not complete (a Go panic or the unbounded memory
eviction loop). -/
def stepOp (op : PublicOp) (now : Int) (fuel : Nat) (c : Cache) : Option Cache :=
  match op with
  | PublicOp.set k v => setOp fuel c now k v
  | PublicOp.setWithTTL k v ttl => setWithTTL fuel c now k v ttl
  | PublicOp.setAll kvs => setAll fuel c now kvs
  | PublicOp.get k => (getOp c now k).map Prod.fst
  | PublicOp.getValue k => (getValue c now k).map Prod.fst
  | PublicOp.getByKeys ks => (getByKeys c now ks).map Prod.fst
  | PublicOp.getAll => (getAll c now).map Prod.fst
  | PublicOp.getKeysByPattern _ _ => some c
  | PublicOp.delete k => (deleteOp c k).map Prod.fst
  | PublicOp.deleteAll ks => (deleteAll c ks).map Prod.fst
  | PublicOp.deleteKeysByPattern p => (deleteKeysByPattern c now p).map Prod.fst
  | PublicOp.count => some c
  | PublicOp.clear => some (clearOp c)
  | PublicOp.ttl _ => some c
  | PublicOp.expire k d => some (expireOp c now k d).fst
  | PublicOp.stats => some c

/-- The reachable cache states: the freshly constructed cache, closed
under completed public operations (at arbitrary instants). -/
inductive Reachable (policy : EvictionPolicy) (maxSize maxMemoryUsage : Nat) :
    Cache → Prop where
  | init : Reachable policy maxSize maxMemoryUsage
      (newCache policy maxSize maxMemoryUsage)
  | step {c c' : Cache} (op : PublicOp) (now : Int) (fuel : Nat) :
      Reachable policy maxSize maxMemoryUsage c →
      stepOp op now fuel c = some c' →
      Reachable policy maxSize maxMemoryUsage c'

/-- How each public operation uses the single core mutex, read off the
source: `Lock` (exclusive), `RLock` (shared), or no acquisition at all.
`Expire` is the one operation whose body touches the shared state with no
mutex call. -/
inductive LockMode where
  | exclusive
  | shared
  | noLock
deriving DecidableEq, Repr

/-- The lock discipline table of the source.  `SetAll`, `GetValue`,
`GetByKeys`, `DeleteAll` and `DeleteKeysByPattern` acquire through their
callees; `Count`, `TTL` and `Stats` take the shared lock; `Expire` takes
none. -/
def coreMutexUsage : PublicOp → LockMode
  | PublicOp.set _ _ => LockMode.exclusive
  | PublicOp.setWithTTL _ _ _ => LockMode.exclusive
  | PublicOp.setAll _ => LockMode.exclusive
  | PublicOp.get _ => LockMode.exclusive
  | PublicOp.getValue _ => LockMode.exclusive
  | PublicOp.getByKeys _ => LockMode.exclusive
  | PublicOp.getAll => LockMode.exclusive
  | PublicOp.getKeysByPattern _ _ => LockMode.exclusive
  | PublicOp.delete _ => LockMode.exclusive
  | PublicOp.deleteAll _ => LockMode.exclusive
  | PublicOp.deleteKeysByPattern _ => LockMode.exclusive
  | PublicOp.count => LockMode.shared
  | PublicOp.clear => LockMode.exclusive
  | PublicOp.ttl _ => LockMode.shared
  | PublicOp.expire _ _ => LockMode.noLock
  | PublicOp.stats => LockMode.shared

/-- Run a list of timestamped public operations from a starting state
(each with ample fuel for the bounded eviction loop); `none` as soon as
one operation fails to complete. -/
def runOps (c : Cache) : List (Int × PublicOp) → Option Cache
  | [] => some c
  | (now, op) :: rest =>
    match stepOp op now 100 c with
    | none => none
    | some c' => runOps c' rest

/-- The access count currently recorded for an entry: the count of the
frequency bucket its `frequencyParent` designates (0 when the entry has
no bucket). -/
def freqOf (c : Cache) (id : Nat) : Nat :=
  match (heapGet c id).frequencyParent with
  | none => 0
  | some bid => ((c.freqs.find? (fun b => b.bid == bid)).map Bucket.freq).getD 0

/-- The recency-chain invariant claimed by the spec (§3, §8): head and
tail are absent exactly when the map is empty, walking the chain from
head visits exactly `|map|` entries, and every mapped entry occurs on the
walk exactly once.  (`head.prev = null` and `tail.next = null` are
inherent to the list representation of the chain.) -/
def recencyChainOk (c : Cache) : Prop :=
  ((c.chain = []) ↔ (c.entries = [])) ∧
  c.chain.length = c.entries.length ∧
  (∀ p ∈ c.entries, c.chain.count p.2 = 1)

instance (c : Cache) : Decidable (recencyChainOk c) := by
  unfold recencyChainOk; infer_instance

/-- The LFU frequency-index invariant claimed by the spec (§3, §8):
every mapped entry that has a frequency bucket has exactly one, and that
bucket contains it; no bucket on the index is empty; bucket counts are
strictly increasing from front to back. -/
def lfuInvariant (c : Cache) : Prop :=
  (∀ p ∈ c.entries, ∀ bid, (heapGet c p.2).frequencyParent = some bid →
    ∃ b ∈ c.freqs, b.bid = bid ∧ p.2 ∈ b.items ∧
      ∀ b' ∈ c.freqs, p.2 ∈ b'.items → b' = b) ∧
  (∀ b ∈ c.freqs, b.items ≠ []) ∧
  List.Chain' (· < ·) (c.freqs.map Bucket.freq)

/-- Structural well-formedness of a cache state, except for the
LFU-touchedness of mapped entries (which is transiently broken inside
`SetWithTTL` between the insertion of a fresh entry and the final
`incrementEntryFrequency`): bucket ordering and membership,
`frequencyParent` back-links, freshness of allocated identities,
heap-backing of mapped entries, and key consistency of the primary map. -/
structure WBcore (c : Cache) : Prop where
  sorted : List.Chain' (· < ·) (c.freqs.map Bucket.freq)
  bucketsNonempty : ∀ b ∈ c.freqs, b.items ≠ []
  freqMin : ∀ b ∈ c.freqs, 1 ≤ b.freq
  bidsNodup : (c.freqs.map Bucket.bid).Nodup
  bidsFresh : ∀ b ∈ c.freqs, b.bid < c.nextBucketId
  itemsNodup : ∀ b ∈ c.freqs, b.items.Nodup
  itemsParent : ∀ b ∈ c.freqs, ∀ id ∈ b.items,
    (heapGet c id).frequencyParent = some b.bid
  itemsFresh : ∀ b ∈ c.freqs, ∀ id ∈ b.items, id < c.nextEntryId
  heapNodup : (c.heap.map Prod.fst).Nodup
  heapFresh : ∀ p ∈ c.heap, p.1 < c.nextEntryId
  mapKey : ∀ p ∈ c.entries, (heapGet c p.2).key = p.1
  mapKeysNodup : (c.entries.map Prod.fst).Nodup
  mapFresh : ∀ p ∈ c.entries, p.2 < c.nextEntryId
  mapInHeap : ∀ p ∈ c.entries, p.2 ∈ c.heap.map Prod.fst
  parentValid : ∀ p ∈ c.entries, ∀ bid,
    (heapGet c p.2).frequencyParent = some bid →
    ∃ b ∈ c.freqs, b.bid = bid ∧ p.2 ∈ b.items

/-- Well-formedness of a cache state: the structural facts that hold in
every reachable state and that the correctness statements about single
operations assume.  Extends `WBcore` with: under the LFU policy every
mapped entry has recorded at least one access (it points to a frequency
bucket). -/
structure WB (c : Cache) extends WBcore c : Prop where
  lfuTouched : c.evictionPolicy = EvictionPolicy.LeastFrequentUsed →
    ∀ p ∈ c.entries, (heapGet c p.2).frequencyParent ≠ none

section Helpers

/-- Looking up the deleted key in the filtered map fails. -/
theorem find?_filter_self (l : List (String × Nat)) (key : String) :
    (l.filter (fun p => !(p.1 == key))).find? (fun p => p.1 == key) = none := by
  induction l with
  | nil => rfl
  | cons p l ih =>
    simp only [List.filter_cons]
    by_cases h : p.1 = key
    · simp [h, ih]
    · simp [beq_eq_false_iff_ne.2 h, List.find?_cons, ih]

/-- Looking up a different key in the filtered map is unchanged. -/
theorem find?_filter_other (l : List (String × Nat)) (key k' : String)
    (h : k' ≠ key) :
    (l.filter (fun p => !(p.1 == key))).find? (fun p => p.1 == k') =
      l.find? (fun p => p.1 == k') := by
  induction l with
  | nil => rfl
  | cons p l ih =>
    simp only [List.filter_cons, List.find?_cons]
    by_cases hp : p.1 = key
    · have hk : (p.1 == k') = false :=
        beq_eq_false_iff_ne.2 (by rw [hp]; exact fun hh => h hh.symm)
      simp [hp, hk, beq_eq_false_iff_ne.2 (fun hh => h hh.symm), ih]
    · by_cases hk : p.1 = k'
      · simp [beq_eq_false_iff_ne.2 hp, List.find?_cons, hk, h]
      · simp [beq_eq_false_iff_ne.2 hp, List.find?_cons, beq_eq_false_iff_ne.2 hk, ih]

theorem lookupKey_mapDelete_self (c : Cache) (key : String) :
    lookupKey (mapDelete c key) key = none := by
  simp [lookupKey, mapDelete, find?_filter_self]

theorem lookupKey_mapDelete_other (c : Cache) (key k' : String) (h : k' ≠ key) :
    lookupKey (mapDelete c key) k' = lookupKey c k' := by
  simp [lookupKey, mapDelete, find?_filter_other _ _ _ h]

theorem lookupKey_removeRefs (c : Cache) (id : Nat) (k : String) :
    lookupKey (removeExistingEntryReferences c id) k = lookupKey c k := rfl

theorem lookupKey_removeFreq (c : Cache) (bid id : Nat) (k : String) :
    lookupKey (removeEntryFromFrequencyList c bid id) k = lookupKey c k := rfl

theorem lookupKey_heapSet (c : Cache) (id : Nat) (e : EntryData) (k : String) :
    lookupKey (heapSet c id e) k = lookupKey c k := rfl

theorem stats_removeRefs (c : Cache) (id : Nat) :
    (removeExistingEntryReferences c id).stats = c.stats := rfl

theorem stats_removeFreq (c : Cache) (bid id : Nat) :
    (removeEntryFromFrequencyList c bid id).stats = c.stats := rfl

theorem stats_mapDelete (c : Cache) (key : String) :
    (mapDelete c key).stats = c.stats := rfl

theorem stats_heapSet (c : Cache) (id : Nat) (e : EntryData) :
    (heapSet c id e).stats = c.stats := rfl

/-- The private deletion never touches the statistics counters. -/
theorem deleteKey_stats (c : Cache) (key : String) (c' : Cache) (b : Bool)
    (h : deleteKey c key = some (c', b)) : c'.stats = c.stats := by
  unfold deleteKey at h
  cases hk : lookupKey c key with
  | none => rw [hk] at h; injection h with h'; cases h'; rfl
  | some id =>
    rw [hk] at h
    simp only at h
    by_cases hp : c.evictionPolicy = EvictionPolicy.LeastFrequentUsed
    · rw [if_pos hp] at h
      cases hq : (heapGet c id).frequencyParent with
      | none => rw [hq] at h; cases h
      | some pbid =>
        rw [hq] at h
        injection h with h'
        cases h'
        by_cases hm : (c.maxMemoryUsage != NoMaxMemoryUsage) = true <;>
          simp [hm, stats_mapDelete, stats_removeRefs, stats_removeFreq]
    · rw [if_neg hp] at h
      injection h with h'
      cases h'
      by_cases hm : (c.maxMemoryUsage != NoMaxMemoryUsage) = true <;>
        simp [hm, stats_mapDelete, stats_removeRefs]

/-- The private deletion never touches the heap of allocated entries. -/
theorem deleteKey_heap (c : Cache) (key : String) (c' : Cache) (b : Bool)
    (h : deleteKey c key = some (c', b)) : c'.heap = c.heap := by
  unfold deleteKey at h
  cases hk : lookupKey c key with
  | none => rw [hk] at h; injection h with h'; cases h'; rfl
  | some id =>
    rw [hk] at h
    simp only at h
    by_cases hp : c.evictionPolicy = EvictionPolicy.LeastFrequentUsed
    · rw [if_pos hp] at h
      cases hq : (heapGet c id).frequencyParent with
      | none => rw [hq] at h; cases h
      | some pbid =>
        rw [hq] at h
        injection h with h'
        cases h'
        by_cases hm : (c.maxMemoryUsage != NoMaxMemoryUsage) = true <;>
          simp [hm, mapDelete, removeExistingEntryReferences, removeEntryFromFrequencyList]
    · rw [if_neg hp] at h
      injection h with h'
      cases h'
      by_cases hm : (c.maxMemoryUsage != NoMaxMemoryUsage) = true <;>
        simp [hm, mapDelete, removeExistingEntryReferences]

end Helpers

section DeleteLemmas

theorem lookupKey_memSet (c : Cache) (m : Int) (k : String) :
    lookupKey { c with memoryUsage := m } k = lookupKey c k := rfl

/-- What the private deletion does to the primary map: the key is gone,
every other key's binding is untouched, and the flag reports whether the
key was bound. -/
theorem deleteKey_lookup (c : Cache) (key : String) (c' : Cache) (b : Bool)
    (h : deleteKey c key = some (c', b)) :
    lookupKey c' key = none ∧
    (∀ k', k' ≠ key → lookupKey c' k' = lookupKey c k') ∧
    b = (lookupKey c key).isSome := by
  unfold deleteKey at h
  cases hk : lookupKey c key with
  | none =>
    rw [hk] at h; injection h with h'
    cases h'
    exact ⟨hk, fun _ _ => rfl, rfl⟩
  | some id =>
    rw [hk] at h
    simp only at h
    by_cases hp : c.evictionPolicy = EvictionPolicy.LeastFrequentUsed
    · rw [if_pos hp] at h
      cases hq : (heapGet c id).frequencyParent with
      | none => rw [hq] at h; cases h
      | some pbid =>
        rw [hq] at h
        injection h with h'
        cases h'
        refine ⟨lookupKey_mapDelete_self _ _, fun k' hne => ?_, rfl⟩
        rw [lookupKey_mapDelete_other _ _ _ hne, lookupKey_removeRefs,
          lookupKey_removeFreq]
        by_cases hm : (c.maxMemoryUsage != NoMaxMemoryUsage) = true <;> simp [hm, lookupKey]
    · rw [if_neg hp] at h
      injection h with h'
      cases h'
      refine ⟨lookupKey_mapDelete_self _ _, fun k' hne => ?_, rfl⟩
      rw [lookupKey_mapDelete_other _ _ _ hne, lookupKey_removeRefs]
      by_cases hm : (c.maxMemoryUsage != NoMaxMemoryUsage) = true <;> simp [hm, lookupKey]

end DeleteLemmas

/-- A concrete well-formed LFU cache used to instantiate the
hypothesis-carrying theorems: two live entries, one with an expiration. -/
def exampleCache : Cache :=
  (runOps (newCache EvictionPolicy.LeastFrequentUsed 10 NoMaxMemoryUsage)
    [(0, PublicOp.setWithTTL "k" 5 100), (0, PublicOp.set "m" 3)]).getD
    (newCache EvictionPolicy.LeastFrequentUsed)

/-- C9: contrary to the claim, `Expire` is the public operation whose
body reads and writes the shared state (`c.get`, `entry.Expiration`)
without acquiring the core mutex in any mode, as the lock-discipline
table read off the source records. -/
theorem expire_takes_no_lock (key : String) (d : Int) :
    coreMutexUsage (PublicOp.expire key d) = LockMode.noLock ∧
    (expireOp (clearOp exampleCache) 0 key d).1 = clearOp exampleCache := by
  constructor
  · rfl
  · unfold expireOp
    have : lookupKey (clearOp exampleCache) key = none := rfl
    rw [this]

/-- C8: `TTL` fails with the key-missing error when the key is absent or
its stored expiration lies strictly in the past, fails with the
no-expiration error when the stored expiration is the `never` sentinel,
and otherwise returns `expiration − now`; in every case the cache state
is unchanged. -/
theorem ttl_cases (c : Cache) (now : Int) (key : String) :
    (lookupKey c key = none →
      ttlOp c now key = Except.error CacheErr.keyDoesNotExist) ∧
    (∀ id, lookupKey c key = some id →
      ((heapGet c id).expiration = NoExpiration →
        ttlOp c now key = Except.error CacheErr.keyHasNoExpiration) ∧
      ((heapGet c id).expiration ≠ NoExpiration → (heapGet c id).expiration < now →
        ttlOp c now key = Except.error CacheErr.keyDoesNotExist) ∧
      ((heapGet c id).expiration ≠ NoExpiration → now ≤ (heapGet c id).expiration →
        ttlOp c now key = Except.ok ((heapGet c id).expiration - now))) ∧
    (∀ fuel, stepOp (PublicOp.ttl key) now fuel c = some c) := by
  refine ⟨fun h => ?_, fun id h => ⟨fun he => ?_, fun he hpast => ?_, fun he hfut => ?_⟩,
    fun _ => rfl⟩
  · unfold ttlOp; rw [h]
  · unfold ttlOp; rw [h]; simp only [if_pos he]
  · unfold ttlOp
    rw [h]
    simp only [if_neg he]
    rw [if_pos (by omega)]
  · unfold ttlOp
    rw [h]
    simp only [if_neg he]
    rw [if_neg (by omega)]

/-- Witness for C8 at a concrete reachable state: key `k` of
`exampleCache` expires at instant 100, so `TTL` at instant 40 returns 60,
at 200 reports the key missing, and key `m` (never expiring) reports
no-expiration. -/
theorem ttl_cases_witness :
    ttlOp exampleCache 40 "k" = Except.ok 60 ∧
    ttlOp exampleCache 200 "k" = Except.error CacheErr.keyDoesNotExist ∧
    ttlOp exampleCache 40 "m" = Except.error CacheErr.keyHasNoExpiration := by
  refine ⟨?_, ?_, ?_⟩
  · exact ((ttl_cases exampleCache 40 "k").2.1 0 (by decide)).2.2 (by decide) (by decide)
  · exact ((ttl_cases exampleCache 200 "k").2.1 0 (by decide)).2.1 (by decide) (by decide)
  · exact ((ttl_cases exampleCache 40 "m").2.1 1 (by decide)).1 (by decide)

/-- If `evict` makes no progress on a state that violates the memory
bound with a non-empty map, the eviction loop of `SetWithTTL` never
exits, whatever fuel it is given. -/
theorem memEvictLoop_stuck (s : Cache) (h : evict s = s)
    (hc : s.memoryUsage > (s.maxMemoryUsage : Int) ∧ s.entries ≠ []) :
    ∀ n, memEvictLoop n s = none := by
  intro n
  induction n with
  | zero => unfold memEvictLoop; rw [if_pos hc]
  | succ n ih => unfold memEvictLoop; rw [if_pos hc, h]; exact ih

/-- The state of the LFU cache with `maxMemoryUsage = 10` as
`SetWithTTL "a" (payload of size 11) NoExpiration` reaches its
memory-bound eviction loop: the single fresh entry (estimated size 12)
is on the chain and in the map, but no frequency bucket exists yet, so
`evict` under `LeastFrequentUsed` does nothing. -/
def c1LoopState : Cache :=
  { maxSize := DefaultMaxSize
    maxMemoryUsage := 10
    evictionPolicy := EvictionPolicy.LeastFrequentUsed
    stats := {}
    entries := [("a", 0)]
    heap := [(0, { key := "a", value := 11, relevantTimestamp := 0,
                   expiration := NoExpiration, frequencyParent := none })]
    chain := [0]
    freqs := []
    memoryUsage := 12
    nextEntryId := 1
    nextBucketId := 0 }

/-- C1 fails on the code: on a fresh LFU cache with `maxMemoryUsage = 10`,
`SetWithTTL "a" v NoExpiration` for a payload of estimated size 11 never
returns — the eviction loop repeats while memory exceeds the bound and
the map is non-empty, but `evict` under `LeastFrequentUsed` only evicts
members of the front frequency bucket and the frequency index is empty
(the fresh entry is only registered there after the loop), so no fuel
suffices. -/
theorem setWithTTL_lfu_memory_nonterminating :
    ∀ fuel : Nat,
      setWithTTL fuel
        (newCache EvictionPolicy.LeastFrequentUsed DefaultMaxSize 10)
        0 "a" 11 NoExpiration = none := by
  intro fuel
  have hstep : setWithTTL fuel
      (newCache EvictionPolicy.LeastFrequentUsed DefaultMaxSize 10)
      0 "a" 11 NoExpiration =
      match memEvictLoop fuel c1LoopState with
      | none => none
      | some c =>
        if c.evictionPolicy = EvictionPolicy.LeastFrequentUsed then
          incrementEntryFrequency c 0
        else some c := rfl
  rw [hstep, memEvictLoop_stuck c1LoopState (by decide) (by decide) fuel]

/-- C2 fails on the code: on an LFU cache with `max_size = 3`, the
displayed sequence of nine completed public operations ends with
`Count() = 4`.  (`Clear` does not reset the frequency index; the stale
front bucket later absorbs `evict`, which then removes a key that is no
longer mapped, so the size-bound eviction of the final `Set` removes
nothing from the map.) -/
theorem count_exceeds_maxSize :
    ((runOps (newCache EvictionPolicy.LeastFrequentUsed 3 NoMaxMemoryUsage)
      [(0, PublicOp.set "a" 1), (0, PublicOp.clear), (0, PublicOp.set "b" 1),
       (0, PublicOp.get "b"), (0, PublicOp.set "c" 1), (0, PublicOp.get "c"),
       (0, PublicOp.set "d" 1), (0, PublicOp.get "d"),
       (0, PublicOp.set "e" 1)]).map
        (fun s => (s.maxSize, countOp s)) = some (3, 4)) ∧ ¬ (4 ≤ 3) := by
  exact ⟨rfl, by decide⟩

/-- C5 fails on the code: on an LFU cache with `max_memory = 100`, the
displayed Set-family sequence completes and leaves
`memory_usage = 105 > 100` with an empty cache (zero entries, not one).
The final `Set` inserts an entry of estimated size 111; the stale bucket
left behind by `Clear` makes `evict` delete the freshly written key from
the map while subtracting only the stale entry's size. -/
theorem memory_bound_violated :
    ((runOps (newCache EvictionPolicy.LeastFrequentUsed DefaultMaxSize 100)
      [(0, PublicOp.set "a" 5), (0, PublicOp.clear), (0, PublicOp.set "a" 110)]).map
        (fun s => ((s.maxMemoryUsage : Int), s.memoryUsage, countOp s)) =
      some (100, 105, 0)) ∧
    ¬ ((105 : Int) ≤ 100 ∨ (0 : Nat) = 1) := by
  exact ⟨rfl, by decide⟩

/-- C6 fails on the code: on an LFU cache with `max_size = 2`, the
displayed sequence of completed public operations ends with one mapped
entry but two entries on the recency chain — walking from head reaches
tail in 2 ≠ |map| = 1 steps, so the claimed chain invariant is violated.
(The stale bucket left by `Clear` shares the key `k` with a live entry;
evicting the stale member deletes the live `k` from the map while the
live entry stays chained.) -/
theorem chain_invariant_broken :
    (runOps (newCache EvictionPolicy.LeastFrequentUsed 2 NoMaxMemoryUsage)
      [(0, PublicOp.set "k" 1), (0, PublicOp.clear), (0, PublicOp.set "k" 1),
       (0, PublicOp.get "k"), (0, PublicOp.set "x" 1), (0, PublicOp.set "y" 1)]).map
      (fun s => (decide (recencyChainOk s), s.entries.length, s.chain.length)) =
      some (false, 1, 2) := by
  rfl

section StatsFrame

/-- Bulk deletion never touches the statistics counters. -/
theorem deleteAll_stats : ∀ (ks : List String) (c c' : Cache) (n : Nat),
    deleteAll c ks = some (c', n) → c'.stats = c.stats := by
  intro ks
  induction ks with
  | nil =>
    intro c c' n h
    unfold deleteAll at h
    injection h with h'
    cases h'
    rfl
  | cons k rest ih =>
    intro c c' n h
    unfold deleteAll at h
    cases hd : deleteKey c k with
    | none => rw [hd] at h; cases h
    | some p =>
      rw [hd] at h
      simp only at h
      cases hr : deleteAll p.1 rest with
      | none => rw [hr] at h; cases h
      | some q =>
        rw [hr] at h
        injection h with h'
        cases h'
        exact (ih p.1 q.1 q.2 hr).trans (deleteKey_stats c k p.1 p.2 hd)

/-- The `GetAll` iteration only ever adds to the hits counter: the
expired, miss and eviction counters come out unchanged even when it
deletes expired entries. -/
theorem getAllGo_stats (now : Int) :
    ∀ (l : List (String × Nat)) (c : Cache) (acc : List (String × Nat))
      (c' : Cache) (out : List (String × Nat)),
      getAllGo now c l acc = some (c', out) →
      c'.stats.expiredKeys = c.stats.expiredKeys ∧
      c'.stats.misses = c.stats.misses ∧
      c'.stats.evictedKeys = c.stats.evictedKeys := by
  intro l
  induction l with
  | nil =>
    intro c acc c' out h
    unfold getAllGo at h
    injection h with h'
    cases h'
    exact ⟨rfl, rfl, rfl⟩
  | cons p rest ih =>
    intro c acc c' out h
    unfold getAllGo at h
    by_cases he : entryExpired (heapGet c p.2) now = true
    · rw [if_pos he] at h
      cases hd : deleteKey c p.1 with
      | none => rw [hd] at h; cases h
      | some q =>
        rw [hd] at h
        simp only at h
        have hs := deleteKey_stats c p.1 q.1 q.2 hd
        obtain ⟨h1, h2, h3⟩ := ih q.1 acc c' out h
        rw [hs] at h1 h2 h3
        exact ⟨h1, h2, h3⟩
    · rw [if_neg he] at h
      exact ih c ((p.1, (heapGet c p.2).value) :: acc) c' out h

/-- `Expire` never touches the statistics counters. -/
theorem expireOp_stats (c : Cache) (now : Int) (key : String) (d : Int) :
    (expireOp c now key d).1.stats = c.stats := by
  unfold expireOp
  cases hk : lookupKey c key with
  | none => rfl
  | some id =>
    simp only
    by_cases he : entryExpired (heapGet c id) now = true
    · rw [if_pos he]
    · rw [if_neg he]
      rfl

/-- C10: `Delete`, `DeleteAll`, `DeleteKeysByPattern`, `Clear` and
`Expire` leave all four statistics counters unchanged; `GetAll` leaves
the expired (and miss and eviction) counters unchanged even when it
deletes expired entries; `Get` on a present-but-expired key increments
the expired counter by one. -/
theorem destructive_ops_preserve_stats (c : Cache) (now : Int)
    (key pattern : String) (ks : List String) (d : Int) :
    (∀ c' b, deleteOp c key = some (c', b) → c'.stats = c.stats) ∧
    (∀ c' n, deleteAll c ks = some (c', n) → c'.stats = c.stats) ∧
    (∀ c' n, deleteKeysByPattern c now pattern = some (c', n) → c'.stats = c.stats) ∧
    ((clearOp c).stats = c.stats) ∧
    ((expireOp c now key d).1.stats = c.stats) ∧
    (∀ c' out, getAll c now = some (c', out) →
      c'.stats.expiredKeys = c.stats.expiredKeys ∧
      c'.stats.misses = c.stats.misses ∧
      c'.stats.evictedKeys = c.stats.evictedKeys) ∧
    (∀ id, lookupKey c key = some id → entryExpired (heapGet c id) now = true →
      ∀ r, getOp c now key = some r →
        r.1.stats.expiredKeys = c.stats.expiredKeys + 1) := by
  refine ⟨fun c' b h => deleteKey_stats c key c' b h,
    fun c' n h => deleteAll_stats ks c c' n h,
    fun c' n h => deleteAll_stats _ c c' n h,
    rfl,
    expireOp_stats c now key d,
    fun c' out h => getAllGo_stats now c.entries c [] c' out h,
    fun id hid he r h => ?_⟩
  unfold getOp at h
  rw [hid] at h
  simp only at h
  rw [if_pos he] at h
  set c1 : Cache :=
    { c with stats := { c.stats with expiredKeys := c.stats.expiredKeys + 1 } } with hc1
  cases hd : deleteKey c1 key with
  | none => rw [hd] at h; cases h
  | some q =>
    rw [hd] at h
    injection h with h'
    cases h'
    have := deleteKey_stats c1 key q.1 q.2 hd
    rw [this]

/-- Witness for C10 at concrete reachable states: deleting a live key of
`exampleCache` and clearing it leave the statistics unchanged. -/
theorem destructive_ops_preserve_stats_witness :
    (clearOp exampleCache).stats = exampleCache.stats ∧
    (∃ p, deleteOp exampleCache "k" = some p ∧
      p.1.stats = exampleCache.stats) := by
  refine ⟨(destructive_ops_preserve_stats exampleCache 0 "k" "x" [] 0).2.2.2.1, ?_⟩
  cases hd : deleteOp exampleCache "k" with
  | none =>
    have : (deleteOp exampleCache "k").isSome = true := by decide
    rw [hd] at this
    cases this
  | some p =>
    refine ⟨p, rfl, (destructive_ops_preserve_stats exampleCache 0 "k" "x" [] 0).1 p.1 p.2 ?_⟩
    rw [hd]

end StatsFrame

section DeleteIfExists

/-- A successful point lookup exhibits the binding in the primary map. -/
theorem lookupKey_mem (c : Cache) (key : String) (id : Nat)
    (h : lookupKey c key = some id) : (key, id) ∈ c.entries := by
  unfold lookupKey at h
  cases hf : c.entries.find? (fun p => p.1 == key) with
  | none => rw [hf] at h; cases h
  | some p =>
    rw [hf] at h
    injection h with h'
    have hm := List.mem_of_find?_eq_some hf
    have hp : p.1 = key := by simpa using List.find?_some hf
    have hpe : p = (key, id) := by
      cases p
      simp only [Prod.mk.injEq]
      exact ⟨hp, h'⟩
    rw [← hpe]
    exact hm

/-- The private deletion completes on a mapped key provided the entry has
a frequency bucket whenever the policy is LFU (true in every reachable
state). -/
theorem deleteKey_mapped_some (c : Cache) (key : String) (id : Nat)
    (h : lookupKey c key = some id)
    (hT : c.evictionPolicy = EvictionPolicy.LeastFrequentUsed →
      (heapGet c id).frequencyParent ≠ none) :
    ∃ c', deleteKey c key = some (c', true) := by
  unfold deleteKey
  rw [h]
  simp only
  by_cases hp : c.evictionPolicy = EvictionPolicy.LeastFrequentUsed
  · rw [if_pos hp]
    cases hq : (heapGet c id).frequencyParent with
    | none => exact absurd hq (hT hp)
    | some pbid => exact ⟨_, rfl⟩
  · rw [if_neg hp]
    exact ⟨_, rfl⟩

/-- Completion-conditioned delete-if-exists semantics of `SetWithTTL`
with a TTL that is neither the never sentinel nor strictly positive,
under the hypothesis that every mapped entry is LFU-touched (which
excludes the reachable nil-parent state `untouchedLfuState`, where the
operation panics instead): on an absent key the state is unchanged; on a
present key exactly that key is unbound, every other binding, all entry
data and the statistics are untouched.  The final conjunct replays
`SetWithTTL(k,v,never); SetWithTTL(k,v,0); Get(k)` → not-found. -/
theorem setWithTTL_nonpositive_ttl (fuel : Nat) (c : Cache) (now : Int)
    (key : String) (value : Nat) (ttl : Int)
    (hT : c.evictionPolicy = EvictionPolicy.LeastFrequentUsed →
      ∀ p ∈ c.entries, (heapGet c p.2).frequencyParent ≠ none)
    (h1 : ttl ≠ NoExpiration) (h2 : ttl < 1) :
    (lookupKey c key = none → setWithTTL fuel c now key value ttl = some c) ∧
    (∀ id, lookupKey c key = some id → ∃ c',
      setWithTTL fuel c now key value ttl = some c' ∧
      lookupKey c' key = none ∧
      (∀ k', k' ≠ key → lookupKey c' k' = lookupKey c k') ∧
      c'.heap = c.heap ∧ c'.stats = c.stats) ∧
    (runOps (newCache EvictionPolicy.FirstInFirstOut 10 NoMaxMemoryUsage)
      [(0, PublicOp.setWithTTL "k" 1 NoExpiration), (0, PublicOp.setWithTTL "k" 1 0),
       (0, PublicOp.get "k")]).map
        (fun s => (countOp s, s.stats.misses)) = some (0, 1) := by
  refine ⟨fun h => ?_, fun id h => ?_, rfl⟩
  · unfold setWithTTL
    rw [h]
    simp only
    rw [if_pos ⟨h1, h2⟩]
  · obtain ⟨c', hd⟩ := deleteKey_mapped_some c key id h
      (fun hp => hT hp (key, id) (lookupKey_mem c key id h))
    refine ⟨c', ?_, ?_, ?_, ?_, ?_⟩
    · unfold setWithTTL
      rw [h]
      simp only
      rw [if_pos ⟨h1, h2⟩, hd]
      rfl
    · exact (deleteKey_lookup c key c' true hd).1
    · exact (deleteKey_lookup c key c' true hd).2.1
    · exact deleteKey_heap c key c' true hd
    · exact deleteKey_stats c key c' true hd

/-- The delete-if-exists lemma at a concrete reachable state: a zero-TTL
write on the live key `k` of `exampleCache` completes and unbinds it,
keeping `m`. -/
theorem setWithTTL_nonpositive_ttl_witness :
    ∃ c', setWithTTL 100 exampleCache 0 "k" 9 0 = some c' ∧
      lookupKey c' "k" = none ∧ lookupKey c' "m" = lookupKey exampleCache "m" := by
  obtain ⟨c', hs, hk, ho, _, _⟩ :=
    (setWithTTL_nonpositive_ttl 100 exampleCache 0 "k" 9 0 (by decide)
      (by decide) (by decide)).2.1 0 (by decide)
  exact ⟨c', hs, hk, ho "m" (by decide)⟩

end DeleteIfExists

section HeapLemmas

theorem map_fst_set (l : List (Nat × EntryData)) (id : Nat) (e : EntryData) :
    (l.map (fun p => if p.1 == id then (id, e) else p)).map Prod.fst =
      l.map Prod.fst := by
  induction l with
  | nil => rfl
  | cons p rest ih =>
    simp only [List.map_cons, ih]
    by_cases h : p.1 = id
    · simp [h]
    · simp [beq_eq_false_iff_ne.2 h]

theorem find?_set_same (l : List (Nat × EntryData)) (id : Nat) (e : EntryData)
    (hmem : id ∈ l.map Prod.fst) :
    (l.map (fun p => if p.1 == id then (id, e) else p)).find?
      (fun p => p.1 == id) = some (id, e) := by
  induction l with
  | nil => cases hmem
  | cons p rest ih =>
    rw [List.map_cons] at hmem
    rw [List.map_cons]
    by_cases h : p.1 = id
    · rw [if_pos (beq_iff_eq.2 h)]
      rw [List.find?_cons_of_pos _ (by simp)]
    · rw [if_neg (by simp [beq_eq_false_iff_ne.2 h])]
      rw [List.find?_cons_of_neg _ (by simp [h])]
      rcases List.mem_cons.1 hmem with h' | h'
      · exact absurd h'.symm h
      · exact ih h'

theorem find?_set_other (l : List (Nat × EntryData)) (id : Nat) (e : EntryData)
    (j : Nat) (hj : j ≠ id) :
    (l.map (fun p => if p.1 == id then (id, e) else p)).find?
      (fun p => p.1 == j) = l.find? (fun p => p.1 == j) := by
  induction l with
  | nil => rfl
  | cons p rest ih =>
    rw [List.map_cons]
    by_cases h : p.1 = id
    · rw [if_pos (beq_iff_eq.2 h)]
      rw [List.find?_cons_of_neg _ (by simp; exact fun he => hj he.symm),
        List.find?_cons_of_neg _ (by simp; exact fun he => hj (h ▸ he).symm)]
      exact ih
    · rw [if_neg (by simp [beq_eq_false_iff_ne.2 h])]
      by_cases hpj : p.1 = j
      · rw [List.find?_cons_of_pos _ (by simp [hpj]),
          List.find?_cons_of_pos _ (by simp [hpj])]
      · rw [List.find?_cons_of_neg _ (by simp [hpj]),
          List.find?_cons_of_neg _ (by simp [hpj])]
        exact ih

theorem heapSet_map_fst (c : Cache) (id : Nat) (e : EntryData) :
    (heapSet c id e).heap.map Prod.fst = c.heap.map Prod.fst :=
  map_fst_set c.heap id e

theorem heapGet_heapSet_same (c : Cache) (id : Nat) (e : EntryData)
    (hmem : id ∈ c.heap.map Prod.fst) : heapGet (heapSet c id e) id = e := by
  unfold heapGet heapSet
  simp only
  rw [find?_set_same c.heap id e hmem]
  rfl

theorem heapGet_heapSet_other (c : Cache) (id : Nat) (e : EntryData) (j : Nat)
    (hj : j ≠ id) : heapGet (heapSet c id e) j = heapGet c j := by
  unfold heapGet heapSet
  simp only
  rw [find?_set_other c.heap id e j hj]

end HeapLemmas

section BucketListLemmas

/-- With duplicate-free bucket identities, searching the index for a
member bucket's identity finds exactly that bucket. -/
theorem find?_bid_of_mem (freqs : List Bucket)
    (hnd : (freqs.map Bucket.bid).Nodup) (b : Bucket) (hb : b ∈ freqs) :
    freqs.find? (fun x => x.bid == b.bid) = some b := by
  induction freqs with
  | nil => cases hb
  | cons a rest ih =>
    rw [List.map_cons, List.nodup_cons] at hnd
    rcases List.mem_cons.1 hb with rfl | hmem
    · rw [List.find?_cons_of_pos _ (by simp)]
    · have hne : a.bid ≠ b.bid :=
        fun he => hnd.1 (he ▸ List.mem_map_of_mem Bucket.bid hmem)
    
      rw [List.find?_cons_of_neg _ (by simp [hne])]
      exact ih hnd.2 hmem

/-- Searching for an identity that the prefix does not carry finds the
marked bucket. -/
theorem find?_bid_append (L R : List Bucket) (t : Bucket) (tbid : Nat)
    (ht : t.bid = tbid) (hL : tbid ∉ L.map Bucket.bid) :
    (L ++ t :: R).find? (fun x => x.bid == tbid) = some t := by
  induction L with
  | nil =>
    rw [List.nil_append, List.find?_cons_of_pos _ (by simp [ht])]
  | cons a rest ih =>
    rw [List.map_cons] at hL
    have hne : a.bid ≠ tbid := fun he => hL (he ▸ List.mem_cons_self _ _)
    rw [List.cons_append, List.find?_cons_of_neg _ (by simp [hne])]
    exact ih (fun hm => hL (List.mem_cons_of_mem _ hm))

/-- Split a bucket list at a member, given duplicate-free identities. -/
theorem split_of_mem_nodupBid (freqs : List Bucket) (b : Bucket)
    (hb : b ∈ freqs) (hnd : (freqs.map Bucket.bid).Nodup) :
    ∃ L R, freqs = L ++ b :: R ∧ b.bid ∉ L.map Bucket.bid ∧
      b.bid ∉ R.map Bucket.bid := by
  obtain ⟨L, R, rfl⟩ := List.append_of_mem hb
  refine ⟨L, R, rfl, ?_, ?_⟩
  · intro hmem
    rw [List.map_append, List.map_cons] at hnd
    exact (List.disjoint_of_nodup_append hnd) hmem (List.mem_cons_self _ _)
  · rw [List.map_append, List.map_cons] at hnd
    have := (List.nodup_append.1 hnd).2.1
    exact (List.nodup_cons.1 this).1

/-- `Next()` of the bucket with identity `bid` is the head of the suffix. -/
theorem nextOfBid_split (L R : List Bucket) (b : Bucket)
    (hL : b.bid ∉ L.map Bucket.bid) :
    nextOfBid b.bid (L ++ b :: R) = R.head? := by
  induction L with
  | nil => simp [nextOfBid]
  | cons a rest ih =>
    rw [List.map_cons] at hL
    have hne : (a.bid == b.bid) = false :=
      beq_eq_false_iff_ne.2 (fun he => hL (he ▸ List.mem_cons_self _ _))
    rw [List.cons_append]
    unfold nextOfBid
    rw [hne]
    simp only [Bool.false_eq_true, if_neg]
    exact ih (fun hm => hL (List.mem_cons_of_mem _ hm))

/-- `InsertAfter` splices the new bucket right after the marked one. -/
theorem insertAfterBid_split (L R : List Bucket) (b nb : Bucket)
    (hL : b.bid ∉ L.map Bucket.bid) :
    insertAfterBid b.bid nb (L ++ b :: R) = L ++ b :: nb :: R := by
  induction L with
  | nil => simp [insertAfterBid]
  | cons a rest ih =>
    rw [List.map_cons] at hL
    have hne : (a.bid == b.bid) = false :=
      beq_eq_false_iff_ne.2 (fun he => hL (he ▸ List.mem_cons_self _ _))
    rw [List.cons_append]
    unfold insertAfterBid
    rw [hne]
    simp only [Bool.false_eq_true, if_false]
    rw [ih (fun hm => hL (List.mem_cons_of_mem _ hm))]
    simp

theorem addToBid_append (tbid id : Nat) (l1 l2 : List Bucket) :
    addToBid tbid id (l1 ++ l2) = addToBid tbid id l1 ++ addToBid tbid id l2 := by
  simp [addToBid]

theorem addToBid_notmem (tbid id : Nat) (l : List Bucket)
    (h : tbid ∉ l.map Bucket.bid) : addToBid tbid id l = l := by
  induction l with
  | nil => rfl
  | cons a rest ih =>
    rw [List.map_cons] at h
    have hne : (a.bid == tbid) = false :=
      beq_eq_false_iff_ne.2 (fun he => h (he ▸ List.mem_cons_self _ _))
    unfold addToBid
    rw [List.map_cons, hne]
    simp only [Bool.false_eq_true, if_false]
    have := ih (fun hm => h (List.mem_cons_of_mem _ hm))
    unfold addToBid at this
    rw [this]

/-- `addToBid` at a uniquely-identified member bucket. -/
theorem addToBid_split (L R : List Bucket) (t : Bucket) (id : Nat)
    (hL : t.bid ∉ L.map Bucket.bid) (hR : t.bid ∉ R.map Bucket.bid) :
    addToBid t.bid id (L ++ t :: R) =
      L ++ { t with items := t.items.insert id } :: R := by
  rw [addToBid_append, addToBid_notmem _ _ _ hL]
  unfold addToBid
  rw [List.map_cons]
  rw [if_pos (by simp)]
  have := addToBid_notmem t.bid id R hR
  unfold addToBid at this
  rw [this]

theorem map_freq_addToBid (tbid id : Nat) (l : List Bucket) :
    (addToBid tbid id l).map Bucket.freq = l.map Bucket.freq := by
  unfold addToBid
  rw [List.map_map]
  apply List.map_congr_left
  intro b _
  by_cases h : b.bid = tbid
  · simp [h]
  · simp only [Function.comp_apply, beq_eq_false_iff_ne.2 h,
      Bool.false_eq_true, if_false]

theorem map_bid_addToBid (tbid id : Nat) (l : List Bucket) :
    (addToBid tbid id l).map Bucket.bid = l.map Bucket.bid := by
  unfold addToBid
  rw [List.map_map]
  apply List.map_congr_left
  intro b _
  by_cases h : b.bid = tbid
  · simp [h]
  · simp only [Function.comp_apply, beq_eq_false_iff_ne.2 h,
      Bool.false_eq_true, if_false]

theorem removeFreqList_append (tbid id : Nat) (l1 l2 : List Bucket) :
    removeFreqList tbid id (l1 ++ l2) =
      removeFreqList tbid id l1 ++ removeFreqList tbid id l2 := by
  simp [removeFreqList]

theorem removeFreqList_notmem (tbid id : Nat) (l : List Bucket)
    (h : tbid ∉ l.map Bucket.bid) : removeFreqList tbid id l = l := by
  induction l with
  | nil => rfl
  | cons a rest ih =>
    rw [List.map_cons] at h
    have hne : (a.bid == tbid) = false :=
      beq_eq_false_iff_ne.2 (fun he => h (he ▸ List.mem_cons_self _ _))
    unfold removeFreqList
    rw [List.map_cons, hne]
    simp only [Bool.false_eq_true, if_false, List.filter_cons, hne,
      Bool.false_and, Bool.not_false, if_true]
    have := ih (fun hm => h (List.mem_cons_of_mem _ hm))
    unfold removeFreqList at this
    rw [this]

/-- `removeEntryFromFrequencyList` at a uniquely-identified member
bucket: the entry leaves the bucket's set; the bucket is dropped exactly
when the set empties. -/
theorem removeFreqList_split (L R : List Bucket) (b : Bucket) (id : Nat)
    (hL : b.bid ∉ L.map Bucket.bid) (hR : b.bid ∉ R.map Bucket.bid) :
    removeFreqList b.bid id (L ++ b :: R) =
      L ++ (if (b.items.erase id).isEmpty then R
            else { b with items := b.items.erase id } :: R) := by
  rw [show (L ++ b :: R) = L ++ [b] ++ R by simp, removeFreqList_append,
    removeFreqList_append, removeFreqList_notmem _ _ _ hL,
    removeFreqList_notmem _ _ _ hR]
  have hone : removeFreqList b.bid id [b] =
      if (b.items.erase id).isEmpty then []
      else [{ b with items := b.items.erase id }] := by
    unfold removeFreqList
    rw [List.map_cons]
    rw [if_pos (by simp)]
    simp only [List.map_nil, List.filter_cons, List.filter_nil, beq_self_eq_true,
      Bool.true_and]
    by_cases he : (b.items.erase id).isEmpty = true
    · rw [if_pos he]
      simp [he]
    · rw [if_neg he]
      simp [Bool.eq_false_iff.2 he]
  rw [hone]
  by_cases he : (b.items.erase id).isEmpty = true
  · rw [if_pos he, if_pos he]
    simp
  · rw [if_neg he, if_neg he]
    simp

theorem map_freq_of_removeFreqList_sub (tbid id : Nat) (l : List Bucket) :
    List.Sublist ((removeFreqList tbid id l).map Bucket.freq) (l.map Bucket.freq) := by
  unfold removeFreqList
  have h1 : List.Sublist
      ((l.map (fun b => if b.bid == tbid then { b with items := b.items.erase id } else b)).filter
        (fun b => !(b.bid == tbid && b.items.isEmpty)))
      (l.map (fun b => if b.bid == tbid then { b with items := b.items.erase id } else b)) :=
    List.filter_sublist _
  have h2 := h1.map Bucket.freq
  rw [List.map_map] at h2
  have h3 : l.map (Bucket.freq ∘ fun b =>
      if b.bid == tbid then { b with items := b.items.erase id } else b) =
      l.map Bucket.freq := by
    apply List.map_congr_left
    intro b _
    by_cases h : b.bid = tbid
    · simp [h]
    · simp only [Function.comp_apply, beq_eq_false_iff_ne.2 h,
        Bool.false_eq_true, if_false]
  rw [h3] at h2
  exact h2

end BucketListLemmas

section IncrementSound

theorem heapGet_congr_heap (c c' : Cache) (h : c'.heap = c.heap) (j : Nat) :
    heapGet c' j = heapGet c j := by
  unfold heapGet
  rw [h]

theorem insert_ne_nil (a : Nat) (l : List Nat) : l.insert a ≠ [] := by
  by_cases h : a ∈ l
  · rw [List.insert_of_mem h]
    intro he
    rw [he] at h
    cases h
  · rw [List.insert_of_not_mem h]
    exact List.cons_ne_nil _ _

/-- Well-formedness of the state produced by the common shape of
`incrementEntryFrequency`'s branches: the entry `id` is re-parented to
the bucket with identity `tbid`, the frequency index is replaced by `F`,
and the identity counter by `K`. -/
theorem WBcore_of_freqShape (c : Cache) (id tbid K : Nat) (F : List Bucket)
    (hc : WBcore c) (hid : id < c.nextEntryId) (hheap : id ∈ c.heap.map Prod.fst)
    (h1 : List.Chain' (· < ·) (F.map Bucket.freq))
    (h2 : ∀ b ∈ F, b.items ≠ [])
    (h3 : ∀ b ∈ F, 1 ≤ b.freq)
    (h4 : (F.map Bucket.bid).Nodup)
    (h5 : ∀ b ∈ F, b.bid < K)
    (h6 : ∀ b ∈ F, b.items.Nodup)
    (h7 : ∀ b ∈ F, ∀ m ∈ b.items, (m = id ∧ b.bid = tbid) ∨
          (m ≠ id ∧ (heapGet c m).frequencyParent = some b.bid))
    (h8 : ∀ b ∈ F, ∀ m ∈ b.items, m ≠ id → m < c.nextEntryId)
    (h9 : ∀ p ∈ c.entries, p.2 ≠ id → ∀ bid,
        (heapGet c p.2).frequencyParent = some bid →
        ∃ b ∈ F, b.bid = bid ∧ p.2 ∈ b.items)
    (h10 : ∃ b ∈ F, b.bid = tbid ∧ id ∈ b.items) :
    WBcore
      { heapSet c id { heapGet c id with frequencyParent := some tbid } with
        freqs := F, nextBucketId := K } := by
  set e' : EntryData := { heapGet c id with frequencyParent := some tbid } with he'
  set c' : Cache :=
    { heapSet c id e' with freqs := F, nextBucketId := K } with hc'
  have hheap' : c'.heap = (heapSet c id e').heap := rfl
  have hsame : heapGet c' id = e' := by
    rw [heapGet_congr_heap (heapSet c id e') c' rfl, heapGet_heapSet_same c id e' hheap]
  have hother : ∀ j, j ≠ id → heapGet c' j = heapGet c j := fun j hj => by
    rw [heapGet_congr_heap (heapSet c id e') c' rfl, heapGet_heapSet_other c id e' j hj]
  refine ⟨h1, h2, h3, h4, h5, h6, ?_, ?_, ?_, ?_, ?_, ?_, ?_, ?_, ?_⟩
  · -- itemsParent
    intro b hb m hm
    rcases h7 b hb m hm with ⟨rfl, hbid⟩ | ⟨hne, hpar⟩
    · rw [hsame, he', hbid]
    · rw [hother m hne, hpar]
  · -- itemsFresh
    intro b hb m hm
    by_cases hme : m = id
    · rw [hme]; exact hid
    · exact h8 b hb m hm hme
  · -- heapNodup
    show (c'.heap.map Prod.fst).Nodup
    rw [hheap', heapSet_map_fst]
    exact hc.heapNodup
  · -- heapFresh
    intro p hp
    rw [hheap'] at hp
    unfold heapSet at hp
    simp only [List.mem_map] at hp
    obtain ⟨q, hq, rfl⟩ := hp
    by_cases h : q.1 = id
    · rw [if_pos (beq_iff_eq.2 h)]
      exact hid
    · rw [if_neg (by simp [beq_eq_false_iff_ne.2 h])]
      exact hc.heapFresh q hq
  · -- mapKey
    intro p hp
    by_cases h : p.2 = id
    · have hk := hc.mapKey p hp
      rw [h] at hk
      rw [h, hsame]
      exact hk
    · rw [hother p.2 h]
      exact hc.mapKey p hp
  · -- mapKeysNodup
    exact hc.mapKeysNodup
  · -- mapFresh
    exact hc.mapFresh
  · -- mapInHeap
    intro p hp
    show p.2 ∈ c'.heap.map Prod.fst
    rw [hheap', heapSet_map_fst]
    exact hc.mapInHeap p hp
  · -- parentValid
    intro p hp bid hbid
    by_cases h : p.2 = id
    · rw [h, hsame] at hbid
      have hbid' : some tbid = some bid := hbid
      injection hbid' with hbid''
      show ∃ b ∈ F, b.bid = bid ∧ p.2 ∈ b.items
      rw [h, ← hbid'']
      exact h10
    · rw [hother p.2 h] at hbid
      exact h9 p hp h bid hbid

/-- The recorded access count of the re-parented entry reads off the
bucket found at `tbid`. -/
theorem freqOf_of_freqShape (c : Cache) (id tbid K : Nat) (F : List Bucket)
    (bt : Bucket) (hheap : id ∈ c.heap.map Prod.fst)
    (hfind : F.find? (fun x => x.bid == tbid) = some bt) :
    freqOf
      { heapSet c id { heapGet c id with frequencyParent := some tbid } with
        freqs := F, nextBucketId := K } id = bt.freq := by
  set e' : EntryData := { heapGet c id with frequencyParent := some tbid } with he'
  set c' : Cache :=
    { heapSet c id e' with freqs := F, nextBucketId := K } with hc'
  have hsame : heapGet c' id = e' := by
    rw [heapGet_congr_heap (heapSet c id e') c' rfl, heapGet_heapSet_same c id e' hheap]
  unfold freqOf
  rw [hsame]
  show ((F.find? (fun x => x.bid == tbid)).map Bucket.freq).getD 0 = bt.freq
  rw [hfind]
  rfl

end IncrementSound

/-- Everything `incrementEntryFrequency` guarantees when it completes:
well-formedness is preserved, the recorded access count of the entry
grows by one, and nothing else of the cache state (map, chain, counters,
configuration, heap domain, other entries) changes. -/
def IncrementPost (c c' : Cache) (id : Nat) : Prop :=
  WBcore c' ∧ freqOf c' id = freqOf c id + 1 ∧
  c'.entries = c.entries ∧ c'.chain = c.chain ∧ c'.stats = c.stats ∧
  c'.memoryUsage = c.memoryUsage ∧ c'.evictionPolicy = c.evictionPolicy ∧
  c'.maxSize = c.maxSize ∧ c'.maxMemoryUsage = c.maxMemoryUsage ∧
  c'.nextEntryId = c.nextEntryId ∧
  c'.heap.map Prod.fst = c.heap.map Prod.fst ∧
  (heapGet c' id).frequencyParent ≠ none ∧
  (∀ j, j ≠ id → heapGet c' j = heapGet c j)

/-- The frame facts of the common result shape of
`incrementEntryFrequency`: only the heap cell of `id`, the frequency
index and the bucket-identity counter change. -/
theorem freqShape_frame (c : Cache) (id tbid K : Nat) (F : List Bucket)
    (c' : Cache)
    (hcc : c' = { heapSet c id
        { heapGet c id with frequencyParent := some tbid } with
      freqs := F, nextBucketId := K })
    (hheap : id ∈ c.heap.map Prod.fst) :
    c'.entries = c.entries ∧ c'.chain = c.chain ∧ c'.stats = c.stats ∧
    c'.memoryUsage = c.memoryUsage ∧ c'.evictionPolicy = c.evictionPolicy ∧
    c'.maxSize = c.maxSize ∧ c'.maxMemoryUsage = c.maxMemoryUsage ∧
    c'.nextEntryId = c.nextEntryId ∧
    c'.heap.map Prod.fst = c.heap.map Prod.fst ∧
    (heapGet c' id).frequencyParent = some tbid ∧
    (∀ j, j ≠ id → heapGet c' j = heapGet c j) := by
  subst hcc
  refine ⟨rfl, rfl, rfl, rfl, rfl, rfl, rfl, rfl, heapSet_map_fst c id _, ?_, ?_⟩
  · show (heapGet (heapSet c id
        { heapGet c id with frequencyParent := some tbid }) id).frequencyParent =
      some tbid
    rw [heapGet_heapSet_same c id _ hheap]
  · intro j hj
    show heapGet (heapSet c id
        { heapGet c id with frequencyParent := some tbid }) j = heapGet c j
    rw [heapGet_heapSet_other c id _ j hj]

/-- When the entry has no bucket, its items cannot occur in any bucket. -/
theorem notin_buckets_of_parent_none (c : Cache) (id : Nat) (hc : WBcore c)
    (hq : (heapGet c id).frequencyParent = none) :
    ∀ b ∈ c.freqs, ∀ m ∈ b.items, m ≠ id := by
  intro b hb m hm he
  have := hc.itemsParent b hb m hm
  rw [he, hq] at this
  cases this

/-- Branch of `incrementEntryFrequency` reusing the front bucket: the
entry had no bucket and the front bucket has count 1. -/
theorem increment_reuse_front (c : Cache) (id : Nat) (hc : WBcore c)
    (hid : id < c.nextEntryId) (hheap : id ∈ c.heap.map Prod.fst)
    (hq : (heapGet c id).frequencyParent = none)
    (b : Bucket) (rest : List Bucket) (hcf : c.freqs = b :: rest)
    (h1 : b.freq = 1) (c' : Cache)
    (hcc : c' = { heapSet c id
        { heapGet c id with frequencyParent := some b.bid } with
      freqs := addToBid b.bid id c.freqs }) :
    IncrementPost c c' id := by
  have hbrest : b.bid ∉ rest.map Bucket.bid := by
    have := hc.bidsNodup
    rw [hcf, List.map_cons, List.nodup_cons] at this
    exact this.1
  have hF : addToBid b.bid id c.freqs =
      { b with items := b.items.insert id } :: rest := by
    rw [hcf]
    have := addToBid_split [] rest b id (by simp) hbrest
    simpa using this
  have hnotid := notin_buckets_of_parent_none c id hc hq
  have hcc2 : c' = { heapSet c id
      { heapGet c id with frequencyParent := some b.bid } with
    freqs := addToBid b.bid id c.freqs,
    nextBucketId := c.nextBucketId } := by
    rw [hcc]
    rfl
  have hmemb : b ∈ c.freqs := by rw [hcf]; exact List.mem_cons_self _ _
  obtain ⟨f1, f2, f3, f4, f5, f6, f7, f8, f9, f10, f11⟩ :=
    freqShape_frame c id b.bid c.nextBucketId (addToBid b.bid id c.freqs) c' hcc2 hheap
  have hwb : WBcore c' := by
    rw [hcc2, hF]
    apply WBcore_of_freqShape c id b.bid c.nextBucketId _ hc hid hheap
    · rw [show ({ b with items := b.items.insert id } :: rest) =
        addToBid b.bid id c.freqs from hF.symm, map_freq_addToBid]
      exact hc.sorted
    · intro b' hb'
      rcases List.mem_cons.1 hb' with rfl | hb'
      · exact insert_ne_nil id b.items
      · exact hc.bucketsNonempty b' (by rw [hcf]; exact List.mem_cons_of_mem _ hb')
    · intro b' hb'
      rcases List.mem_cons.1 hb' with rfl | hb'
      · exact hc.freqMin b hmemb
      · exact hc.freqMin b' (by rw [hcf]; exact List.mem_cons_of_mem _ hb')
    · rw [show ({ b with items := b.items.insert id } :: rest) =
        addToBid b.bid id c.freqs from hF.symm, map_bid_addToBid]
      exact hc.bidsNodup
    · intro b' hb'
      rcases List.mem_cons.1 hb' with rfl | hb'
      · exact hc.bidsFresh b hmemb
      · exact hc.bidsFresh b' (by rw [hcf]; exact List.mem_cons_of_mem _ hb')
    · intro b' hb'
      rcases List.mem_cons.1 hb' with rfl | hb'
      · exact (hc.itemsNodup b hmemb).insert
      · exact hc.itemsNodup b' (by rw [hcf]; exact List.mem_cons_of_mem _ hb')
    · intro b' hb' m hm
      rcases List.mem_cons.1 hb' with rfl | hb'
      · rcases List.mem_insert_iff.1 hm with rfl | hm
        · exact Or.inl ⟨rfl, rfl⟩
        · exact Or.inr ⟨hnotid b hmemb m hm, hc.itemsParent b hmemb m hm⟩
      · have hb'' : b' ∈ c.freqs := by rw [hcf]; exact List.mem_cons_of_mem _ hb'
        exact Or.inr ⟨hnotid b' hb'' m hm, hc.itemsParent b' hb'' m hm⟩
    · intro b' hb' m hm _
      rcases List.mem_cons.1 hb' with rfl | hb'
      · rcases List.mem_insert_iff.1 hm with rfl | hm
        · exact hid
        · exact hc.itemsFresh b hmemb m hm
      · exact hc.itemsFresh b' (by rw [hcf]; exact List.mem_cons_of_mem _ hb') m hm
    · intro p hp hpne bid hbid
      obtain ⟨b0, hb0, hb0bid, hb0mem⟩ := hc.parentValid p hp bid hbid
      rw [hcf] at hb0
      rcases List.mem_cons.1 hb0 with rfl | hb0
      · exact ⟨{ b0 with items := b0.items.insert id }, List.mem_cons_self _ _,
          hb0bid, List.mem_insert_of_mem hb0mem⟩
      · exact ⟨b0, List.mem_cons_of_mem _ hb0, hb0bid, hb0mem⟩
    · exact ⟨{ b with items := b.items.insert id }, List.mem_cons_self _ _,
        rfl, List.mem_insert_self _ _⟩
  have hfreq : freqOf c' id = freqOf c id + 1 := by
    have hpre : freqOf c id = 0 := by unfold freqOf; rw [hq]
    rw [hpre]
    have := freqOf_of_freqShape c id b.bid c.nextBucketId
      (addToBid b.bid id c.freqs) { b with items := b.items.insert id } hheap
      (by rw [hF, List.find?_cons_of_pos _ (by simp)])
    rw [← hcc2] at this
    rw [this, h1]
  refine ⟨hwb, hfreq, f1, f2, f3, f4, f5, f6, f7, f8, f9, ?_, f11⟩
  rw [f10]
  exact Option.some_ne_none _

/-- Branch of `incrementEntryFrequency` creating a fresh count-1 bucket
at the front of the index: the entry had no bucket and the front bucket,
if any, does not have count 1. -/
theorem increment_push_front (c : Cache) (id : Nat) (hc : WBcore c)
    (hid : id < c.nextEntryId) (hheap : id ∈ c.heap.map Prod.fst)
    (hq : (heapGet c id).frequencyParent = none)
    (hfront : ∀ y ∈ (c.freqs.map Bucket.freq).head?, 1 < y) (c' : Cache)
    (hcc : c' = { heapSet c id
        { heapGet c id with frequencyParent := some c.nextBucketId } with
      freqs := { bid := c.nextBucketId, freq := 1, items := [id] } :: c.freqs,
      nextBucketId := c.nextBucketId + 1 }) :
    IncrementPost c c' id := by
  have hnotid := notin_buckets_of_parent_none c id hc hq
  obtain ⟨f1, f2, f3, f4, f5, f6, f7, f8, f9, f10, f11⟩ :=
    freqShape_frame c id c.nextBucketId (c.nextBucketId + 1)
      ({ bid := c.nextBucketId, freq := 1, items := [id] } :: c.freqs) c' hcc hheap
  have hwb : WBcore c' := by
    rw [hcc]
    apply WBcore_of_freqShape c id c.nextBucketId (c.nextBucketId + 1) _ hc hid hheap
    · rw [List.map_cons]
      exact List.chain'_cons'.2 ⟨hfront, hc.sorted⟩
    · intro b' hb'
      rcases List.mem_cons.1 hb' with rfl | hb'
      · exact List.cons_ne_nil _ _
      · exact hc.bucketsNonempty b' hb'
    · intro b' hb'
      rcases List.mem_cons.1 hb' with rfl | hb'
      · exact le_refl 1
      · exact hc.freqMin b' hb'
    · rw [List.map_cons, List.nodup_cons]
      refine ⟨fun hm => ?_, hc.bidsNodup⟩
      obtain ⟨b0, hb0, hb0e⟩ := List.mem_map.1 hm
      exact absurd hb0e (Nat.ne_of_lt (hc.bidsFresh b0 hb0))
    · intro b' hb'
      rcases List.mem_cons.1 hb' with rfl | hb'
      · exact Nat.lt_succ_self _
      · exact Nat.lt_succ_of_lt (hc.bidsFresh b' hb')
    · intro b' hb'
      rcases List.mem_cons.1 hb' with rfl | hb'
      · exact List.nodup_singleton _
      · exact hc.itemsNodup b' hb'
    · intro b' hb' m hm
      rcases List.mem_cons.1 hb' with rfl | hb'
      · rcases List.mem_singleton.1 hm with rfl
        exact Or.inl ⟨rfl, rfl⟩
      · exact Or.inr ⟨hnotid b' hb' m hm, hc.itemsParent b' hb' m hm⟩
    · intro b' hb' m hm hmne
      rcases List.mem_cons.1 hb' with rfl | hb'
      · exact absurd (List.mem_singleton.1 hm) hmne
      · exact hc.itemsFresh b' hb' m hm
    · intro p hp hpne bid hbid
      obtain ⟨b0, hb0, hb0bid, hb0mem⟩ := hc.parentValid p hp bid hbid
      exact ⟨b0, List.mem_cons_of_mem _ hb0, hb0bid, hb0mem⟩
    · exact ⟨_, List.mem_cons_self _ _, rfl, List.mem_singleton.2 rfl⟩
  have hfreq : freqOf c' id = freqOf c id + 1 := by
    have hpre : freqOf c id = 0 := by unfold freqOf; rw [hq]
    rw [hpre]
    have := freqOf_of_freqShape c id c.nextBucketId (c.nextBucketId + 1)
      ({ bid := c.nextBucketId, freq := 1, items := [id] } :: c.freqs)
      { bid := c.nextBucketId, freq := 1, items := [id] } hheap
      (by rw [List.find?_cons_of_pos _ (by simp)])
    rw [← hcc] at this
    rw [this]
  refine ⟨hwb, hfreq, f1, f2, f3, f4, f5, f6, f7, f8, f9, ?_, f11⟩
  rw [f10]
  exact Option.some_ne_none _

/-- An entry with parent `pbid` occurs in no bucket other than the one
identified by `pbid`. -/
theorem notin_other_buckets (c : Cache) (id pbid : Nat) (hc : WBcore c)
    (hq : (heapGet c id).frequencyParent = some pbid) :
    ∀ b ∈ c.freqs, b.bid ≠ pbid → id ∉ b.items := by
  intro b hb hbne hmem
  have := hc.itemsParent b hb id hmem
  rw [hq] at this
  injection this with h'
  exact hbne h'.symm

/-- Branch of `incrementEntryFrequency` moving the entry from its bucket
to the immediately following bucket, which already carries the target
count. -/
theorem increment_reuse_next (c : Cache) (id pbid : Nat) (hc : WBcore c)
    (hid : id < c.nextEntryId) (hheap : id ∈ c.heap.map Prod.fst)
    (hq : (heapGet c id).frequencyParent = some pbid)
    (L R' : List Bucket) (cur nxt : Bucket)
    (hsplit : c.freqs = L ++ cur :: nxt :: R')
    (hcurbid : cur.bid = pbid)
    (hfr : nxt.freq = cur.freq + 1) (c' : Cache)
    (hcc : c' = { heapSet c id
        { heapGet c id with frequencyParent := some nxt.bid } with
      freqs := removeFreqList pbid id (addToBid nxt.bid id c.freqs) }) :
    IncrementPost c c' id := by
  classical
  -- identity bookkeeping along the split
  have hbids := hc.bidsNodup
  rw [hsplit, List.map_append, List.map_cons, List.map_cons] at hbids
  have hndL := (List.nodup_append.1 hbids).1
  have hndR := (List.nodup_append.1 hbids).2.1
  have hdisj := (List.nodup_append.1 hbids).2.2
  have hcn : cur.bid ≠ nxt.bid := by
    intro he
    exact (List.nodup_cons.1 hndR).1 (he ▸ List.mem_cons_self _ _)
  have hcR : cur.bid ∉ R'.map Bucket.bid := by
    intro hm
    exact (List.nodup_cons.1 hndR).1 (List.mem_cons_of_mem _ hm)
  have hnR : nxt.bid ∉ R'.map Bucket.bid :=
    (List.nodup_cons.1 (List.nodup_cons.1 hndR).2).1
  have hLp : pbid ∉ L.map Bucket.bid := by
    intro hm
    exact hdisj hm (hcurbid ▸ List.mem_cons_self _ _)
  have hnL : nxt.bid ∉ L.map Bucket.bid := by
    intro hm
    exact hdisj hm (List.mem_cons_of_mem _ (List.mem_cons_self _ _))
  have hnp : nxt.bid ≠ pbid := fun he => hcn (hcurbid ▸ he.symm ▸ rfl)
  -- the frequency index after the two mutations
  set nxt' : Bucket := { nxt with items := nxt.items.insert id } with hnxt'
  set cur' : Bucket := { cur with items := cur.items.erase id } with hcur'
  have hsplit2 : c.freqs = (L ++ [cur]) ++ nxt :: R' := by
    rw [hsplit]; simp
  have hF1 : addToBid nxt.bid id c.freqs = L ++ cur :: nxt' :: R' := by
    rw [hsplit2, addToBid_split (L ++ [cur]) R' nxt id
      (by
        rw [List.map_append]
        intro hm
        rcases List.mem_append.1 hm with hm | hm
        · exact hnL hm
        · simp at hm
          exact hcn hm.symm)
      hnR]
    simp
  have hFeq : removeFreqList pbid id (addToBid nxt.bid id c.freqs) =
      L ++ (if (cur.items.erase id).isEmpty then nxt' :: R'
            else cur' :: nxt' :: R') := by
    rw [hF1, ← hcurbid,
      removeFreqList_split L (nxt' :: R') cur id
        (by rw [hcurbid]; exact hLp)
        (by
          rw [List.map_cons]
          intro hm
          rcases List.mem_cons.1 hm with hm | hm
          · exact hcn hm
          · exact hcR hm)]
  have hmemL : ∀ b' ∈ L, b' ∈ c.freqs := by
    intro b' hb'; rw [hsplit]; exact List.mem_append_left _ hb'
  have hmemR : ∀ b' ∈ R', b' ∈ c.freqs := by
    intro b' hb'
    rw [hsplit]
    exact List.mem_append_right _ (List.mem_cons_of_mem _ (List.mem_cons_of_mem _ hb'))
  have hmemcur : cur ∈ c.freqs := by
    rw [hsplit]; exact List.mem_append_right _ (List.mem_cons_self _ _)
  have hmemnxt : nxt ∈ c.freqs := by
    rw [hsplit]
    exact List.mem_append_right _ (List.mem_cons_of_mem _ (List.mem_cons_self _ _))
  have hidnotL : ∀ b' ∈ L, id ∉ b'.items := by
    intro b' hb'
    exact notin_other_buckets c id pbid hc hq b' (hmemL b' hb')
      (fun he => hLp (he ▸ List.mem_map_of_mem Bucket.bid hb'))
  have hidnotR : ∀ b' ∈ R', id ∉ b'.items := by
    intro b' hb'
    exact notin_other_buckets c id pbid hc hq b' (hmemR b' hb')
      (fun he => hcR (hcurbid ▸ (he ▸ List.mem_map_of_mem Bucket.bid hb')))
  have hidnotnxt : id ∉ nxt.items :=
    notin_other_buckets c id pbid hc hq nxt hmemnxt hnp
  -- membership in the new index
  have hmemF : ∀ b' ∈ L ++ (if (cur.items.erase id).isEmpty then nxt' :: R'
      else cur' :: nxt' :: R'),
      b' ∈ L ∨ (b' = cur' ∧ (cur.items.erase id).isEmpty = false) ∨
      b' = nxt' ∨ b' ∈ R' := by
    intro b' hb'
    rcases List.mem_append.1 hb' with hb' | hb'
    · exact Or.inl hb'
    · by_cases he : (cur.items.erase id).isEmpty = true
      · rw [if_pos he] at hb'
        rcases List.mem_cons.1 hb' with rfl | hb'
        · exact Or.inr (Or.inr (Or.inl rfl))
        · exact Or.inr (Or.inr (Or.inr hb'))
      · rw [if_neg he] at hb'
        rcases List.mem_cons.1 hb' with rfl | hb'
        · exact Or.inr (Or.inl ⟨rfl, Bool.eq_false_iff.2 he⟩)
        · rcases List.mem_cons.1 hb' with rfl | hb'
          · exact Or.inr (Or.inr (Or.inl rfl))
          · exact Or.inr (Or.inr (Or.inr hb'))
  have hcc2 : c' = { heapSet c id
      { heapGet c id with frequencyParent := some nxt.bid } with
    freqs := removeFreqList pbid id (addToBid nxt.bid id c.freqs),
    nextBucketId := c.nextBucketId } := by
    rw [hcc]
    rfl
  obtain ⟨f1, f2, f3, f4, f5, f6, f7, f8, f9, f10, f11⟩ :=
    freqShape_frame c id nxt.bid c.nextBucketId
      (removeFreqList pbid id (addToBid nxt.bid id c.freqs)) c' hcc2 hheap
  have hwb : WBcore c' := by
    rw [hcc2]
    apply WBcore_of_freqShape c id nxt.bid c.nextBucketId _ hc hid hheap
    · -- sorted, by sublist of the original counts
      have hsub := map_freq_of_removeFreqList_sub pbid id (addToBid nxt.bid id c.freqs)
      rw [map_freq_addToBid] at hsub
      exact hc.sorted.sublist hsub
    · intro b' hb'
      rw [hFeq] at hb'
      rcases hmemF b' hb' with hb' | ⟨rfl, hne⟩ | rfl | hb'
      · exact hc.bucketsNonempty b' (hmemL b' hb')
      · intro he0
        have he0' : cur.items.erase id = [] := he0
        rw [he0'] at hne
        simp at hne
      · exact insert_ne_nil id nxt.items
      · exact hc.bucketsNonempty b' (hmemR b' hb')
    · intro b' hb'
      rw [hFeq] at hb'
      rcases hmemF b' hb' with hb' | ⟨rfl, _⟩ | rfl | hb'
      · exact hc.freqMin b' (hmemL b' hb')
      · exact hc.freqMin cur hmemcur
      · exact hc.freqMin nxt hmemnxt
      · exact hc.freqMin b' (hmemR b' hb')
    · -- identities stay duplicate-free
      rw [hFeq]
      by_cases he : (cur.items.erase id).isEmpty = true
      · rw [if_pos he, List.map_append, List.map_cons]
        have : (nxt'.bid :: R'.map Bucket.bid) =
            ((nxt.bid :: R'.map Bucket.bid) : List Nat) := rfl
        rw [this]
        have hsub : List.Sublist (L.map Bucket.bid ++ nxt.bid :: R'.map Bucket.bid)
            (L.map Bucket.bid ++ cur.bid :: nxt.bid :: R'.map Bucket.bid) :=
          List.Sublist.append_left (List.sublist_cons_self _ _) _
        exact hbids.sublist hsub
      · rw [if_neg he, List.map_append, List.map_cons, List.map_cons]
        have : cur'.bid = cur.bid := rfl
        rw [this]
        have : nxt'.bid = nxt.bid := rfl
        rw [this]
        exact hbids
    · intro b' hb'
      rw [hFeq] at hb'
      rcases hmemF b' hb' with hb' | ⟨rfl, _⟩ | rfl | hb'
      · exact hc.bidsFresh b' (hmemL b' hb')
      · exact hc.bidsFresh cur hmemcur
      · exact hc.bidsFresh nxt hmemnxt
      · exact hc.bidsFresh b' (hmemR b' hb')
    · intro b' hb'
      rw [hFeq] at hb'
      rcases hmemF b' hb' with hb' | ⟨rfl, _⟩ | rfl | hb'
      · exact hc.itemsNodup b' (hmemL b' hb')
      · exact (hc.itemsNodup cur hmemcur).erase id
      · exact (hc.itemsNodup nxt hmemnxt).insert
      · exact hc.itemsNodup b' (hmemR b' hb')
    · intro b' hb' m hm
      rw [hFeq] at hb'
      rcases hmemF b' hb' with hb' | ⟨rfl, _⟩ | rfl | hb'
      · refine Or.inr ⟨fun he => hidnotL b' hb' (he ▸ hm), ?_⟩
        exact hc.itemsParent b' (hmemL b' hb') m hm
      · have hm' : m ∈ cur.items := (cur.items.erase_subset id) hm
        refine Or.inr ⟨?_, hc.itemsParent cur hmemcur m hm'⟩
        intro he
        exact (hc.itemsNodup cur hmemcur).not_mem_erase (he ▸ hm)
      · rcases List.mem_insert_iff.1 hm with rfl | hm'
        · exact Or.inl ⟨rfl, rfl⟩
        · exact Or.inr ⟨fun he => hidnotnxt (he ▸ hm'),
            hc.itemsParent nxt hmemnxt m hm'⟩
      · refine Or.inr ⟨fun he => hidnotR b' hb' (he ▸ hm), ?_⟩
        exact hc.itemsParent b' (hmemR b' hb') m hm
    · intro b' hb' m hm hmne
      rw [hFeq] at hb'
      rcases hmemF b' hb' with hb' | ⟨rfl, _⟩ | rfl | hb'
      · exact hc.itemsFresh b' (hmemL b' hb') m hm
      · exact hc.itemsFresh cur hmemcur m ((cur.items.erase_subset id) hm)
      · rcases List.mem_insert_iff.1 hm with rfl | hm'
        · exact absurd rfl hmne
        · exact hc.itemsFresh nxt hmemnxt m hm'
      · exact hc.itemsFresh b' (hmemR b' hb') m hm
    · -- other mapped entries keep a valid bucket
      intro p hp hpne bid hbid
      obtain ⟨b0, hb0, hb0bid, hb0mem⟩ := hc.parentValid p hp bid hbid
      rw [hsplit] at hb0
      rw [hFeq]
      rcases List.mem_append.1 hb0 with hb0 | hb0
      · exact ⟨b0, List.mem_append_left _ hb0, hb0bid, hb0mem⟩
      · rcases List.mem_cons.1 hb0 with rfl | hb0
        · -- p sits in cur; the erased set still contains it
          have hpmem : p.2 ∈ b0.items.erase id :=
            (List.Nodup.mem_erase_iff (hc.itemsNodup b0 hmemcur)).2 ⟨hpne, hb0mem⟩
          have hne : (b0.items.erase id).isEmpty = false := by
            cases hh : b0.items.erase id with
            | nil => rw [hh] at hpmem; cases hpmem
            | cons x xs => rfl
          rw [if_neg (by rw [hne]; exact Bool.false_ne_true)]
          exact ⟨cur', List.mem_append_right _ (List.mem_cons_self _ _), hb0bid, hpmem⟩
        · rcases List.mem_cons.1 hb0 with rfl | hb0
          · refine ⟨nxt', ?_, hb0bid, List.mem_insert_of_mem hb0mem⟩
            by_cases he : (cur.items.erase id).isEmpty = true
            · rw [if_pos he]
              exact List.mem_append_right _ (List.mem_cons_self _ _)
            · rw [if_neg he]
              exact List.mem_append_right _
                (List.mem_cons_of_mem _ (List.mem_cons_self _ _))
          · refine ⟨b0, ?_, hb0bid, hb0mem⟩
            by_cases he : (cur.items.erase id).isEmpty = true
            · rw [if_pos he]
              exact List.mem_append_right _ (List.mem_cons_of_mem _ hb0)
            · rw [if_neg he]
              exact List.mem_append_right _
                (List.mem_cons_of_mem _ (List.mem_cons_of_mem _ hb0))
    · -- the target bucket holds the entry
      rw [hFeq]
      refine ⟨nxt', ?_, rfl, List.mem_insert_self _ _⟩
      by_cases he : (cur.items.erase id).isEmpty = true
      · rw [if_pos he]
        exact List.mem_append_right _ (List.mem_cons_self _ _)
      · rw [if_neg he]
        exact List.mem_append_right _
          (List.mem_cons_of_mem _ (List.mem_cons_self _ _))
  have hfreq : freqOf c' id = freqOf c id + 1 := by
    have hpre : freqOf c id = cur.freq := by
      unfold freqOf
      rw [hq]
      show ((c.freqs.find? (fun b => b.bid == pbid)).map Bucket.freq).getD 0 = cur.freq
      rw [hsplit, find?_bid_append L (nxt :: R') cur pbid hcurbid hLp]
      rfl
    have hfind : (removeFreqList pbid id (addToBid nxt.bid id c.freqs)).find?
        (fun x => x.bid == nxt.bid) = some nxt' := by
      rw [hFeq]
      by_cases he : (cur.items.erase id).isEmpty = true
      · rw [if_pos he]
        exact find?_bid_append L R' nxt' nxt.bid rfl hnL
      · rw [if_neg he]
        have : (L ++ cur' :: nxt' :: R') = (L ++ [cur']) ++ nxt' :: R' := by simp
        rw [this]
        refine find?_bid_append (L ++ [cur']) R' nxt' nxt.bid rfl ?_
        rw [List.map_append]
        intro hm
        rcases List.mem_append.1 hm with hm | hm
        · exact hnL hm
        · simp at hm
          exact hcn hm.symm
    have := freqOf_of_freqShape c id nxt.bid c.nextBucketId
      (removeFreqList pbid id (addToBid nxt.bid id c.freqs)) nxt' hheap hfind
    rw [← hcc2] at this
    rw [this, hpre]
    exact hfr
  refine ⟨hwb, hfreq, f1, f2, f3, f4, f5, f6, f7, f8, f9, ?_, f11⟩
  rw [f10]
  exact Option.some_ne_none _

/-- Branch of `incrementEntryFrequency` creating a fresh bucket with the
target count right after the entry's current bucket (the successor either
does not exist or carries a different count). -/
theorem increment_insert_after (c : Cache) (id pbid : Nat) (hc : WBcore c)
    (hid : id < c.nextEntryId) (hheap : id ∈ c.heap.map Prod.fst)
    (hq : (heapGet c id).frequencyParent = some pbid)
    (L R : List Bucket) (cur : Bucket)
    (hsplit : c.freqs = L ++ cur :: R)
    (hcurbid : cur.bid = pbid)
    (hnext : ∀ y ∈ (R.map Bucket.freq).head?, cur.freq + 1 < y) (c' : Cache)
    (hcc : c' = { heapSet c id
        { heapGet c id with frequencyParent := some c.nextBucketId } with
      freqs := removeFreqList pbid id (insertAfterBid pbid
        { bid := c.nextBucketId, freq := cur.freq + 1, items := [id] } c.freqs),
      nextBucketId := c.nextBucketId + 1 }) :
    IncrementPost c c' id := by
  classical
  set nb : Bucket :=
    { bid := c.nextBucketId, freq := cur.freq + 1, items := [id] } with hnb
  set cur' : Bucket := { cur with items := cur.items.erase id } with hcur'
  have hbids := hc.bidsNodup
  rw [hsplit, List.map_append, List.map_cons] at hbids
  have hndL := (List.nodup_append.1 hbids).1
  have hndR := (List.nodup_append.1 hbids).2.1
  have hdisj := (List.nodup_append.1 hbids).2.2
  have hLp : pbid ∉ L.map Bucket.bid := by
    intro hm
    exact hdisj hm (hcurbid ▸ List.mem_cons_self _ _)
  have hcR : cur.bid ∉ R.map Bucket.bid := (List.nodup_cons.1 hndR).1
  have hmemL : ∀ b' ∈ L, b' ∈ c.freqs := by
    intro b' hb'; rw [hsplit]; exact List.mem_append_left _ hb'
  have hmemR : ∀ b' ∈ R, b' ∈ c.freqs := by
    intro b' hb'
    rw [hsplit]
    exact List.mem_append_right _ (List.mem_cons_of_mem _ hb')
  have hmemcur : cur ∈ c.freqs := by
    rw [hsplit]; exact List.mem_append_right _ (List.mem_cons_self _ _)
  have hcntL : c.nextBucketId ∉ L.map Bucket.bid := by
    intro hm
    obtain ⟨b0, hb0, hb0e⟩ := List.mem_map.1 hm
    exact absurd hb0e (Nat.ne_of_lt (hc.bidsFresh b0 (hmemL b0 hb0)))
  have hcntR : c.nextBucketId ∉ R.map Bucket.bid := by
    intro hm
    obtain ⟨b0, hb0, hb0e⟩ := List.mem_map.1 hm
    exact absurd hb0e (Nat.ne_of_lt (hc.bidsFresh b0 (hmemR b0 hb0)))
  have hcntc : cur.bid ≠ c.nextBucketId := Nat.ne_of_lt (hc.bidsFresh cur hmemcur)
  have hidnotL : ∀ b' ∈ L, id ∉ b'.items := by
    intro b' hb'
    exact notin_other_buckets c id pbid hc hq b' (hmemL b' hb')
      (fun he => hLp (he ▸ List.mem_map_of_mem Bucket.bid hb'))
  have hidnotR : ∀ b' ∈ R, id ∉ b'.items := by
    intro b' hb'
    exact notin_other_buckets c id pbid hc hq b' (hmemR b' hb')
      (fun he => hcR (hcurbid ▸ (he ▸ List.mem_map_of_mem Bucket.bid hb')))
  have hF1 : insertAfterBid pbid nb c.freqs = L ++ cur :: nb :: R := by
    rw [hsplit, ← hcurbid, insertAfterBid_split L R cur nb (by rw [hcurbid]; exact hLp)]
  have hFeq : removeFreqList pbid id (insertAfterBid pbid nb c.freqs) =
      L ++ (if (cur.items.erase id).isEmpty then nb :: R
            else cur' :: nb :: R) := by
    rw [hF1, ← hcurbid,
      removeFreqList_split L (nb :: R) cur id
        (by rw [hcurbid]; exact hLp)
        (by
          rw [List.map_cons]
          intro hm
          rcases List.mem_cons.1 hm with hm | hm
          · exact hcntc hm
          · exact hcR hm)]
  have hmemF : ∀ b' ∈ L ++ (if (cur.items.erase id).isEmpty then nb :: R
      else cur' :: nb :: R),
      b' ∈ L ∨ (b' = cur' ∧ (cur.items.erase id).isEmpty = false) ∨
      b' = nb ∨ b' ∈ R := by
    intro b' hb'
    rcases List.mem_append.1 hb' with hb' | hb'
    · exact Or.inl hb'
    · by_cases he : (cur.items.erase id).isEmpty = true
      · rw [if_pos he] at hb'
        rcases List.mem_cons.1 hb' with rfl | hb'
        · exact Or.inr (Or.inr (Or.inl rfl))
        · exact Or.inr (Or.inr (Or.inr hb'))
      · rw [if_neg he] at hb'
        rcases List.mem_cons.1 hb' with rfl | hb'
        · exact Or.inr (Or.inl ⟨rfl, Bool.eq_false_iff.2 he⟩)
        · rcases List.mem_cons.1 hb' with rfl | hb'
          · exact Or.inr (Or.inr (Or.inl rfl))
          · exact Or.inr (Or.inr (Or.inr hb'))
  have hsorted0 := hc.sorted
  rw [hsplit, List.map_append, List.map_cons] at hsorted0
  have hchL := (List.chain'_append.1 hsorted0).1
  have hchR := (List.chain'_append.1 hsorted0).2.1
  have hlink := (List.chain'_append.1 hsorted0).2.2
  have hcurR := List.chain'_cons'.1 hchR
  obtain ⟨f1, f2, f3, f4, f5, f6, f7, f8, f9, f10, f11⟩ :=
    freqShape_frame c id c.nextBucketId (c.nextBucketId + 1)
      (removeFreqList pbid id (insertAfterBid pbid nb c.freqs)) c' hcc hheap
  have hwb : WBcore c' := by
    rw [hcc]
    apply WBcore_of_freqShape c id c.nextBucketId (c.nextBucketId + 1) _ hc hid hheap
    · -- sorted: the fresh count sits strictly between its neighbours
      rw [hFeq]
      by_cases he : (cur.items.erase id).isEmpty = true
      · rw [if_pos he, List.map_append, List.map_cons]
        refine List.chain'_append.2 ⟨hchL, ?_, ?_⟩
        · refine List.chain'_cons'.2 ⟨?_, hcurR.2⟩
          show ∀ y ∈ (R.map Bucket.freq).head?, nb.freq < y
          exact hnext
        · intro x hx y hy
          rw [List.head?_cons, Option.mem_some_iff] at hy
          have := hlink x hx cur.freq (by rw [List.head?_cons]; rfl)
          rw [← hy]
          exact Nat.lt_succ_of_lt this
      · rw [if_neg he, List.map_append, List.map_cons, List.map_cons]
        refine List.chain'_append.2 ⟨hchL, ?_, ?_⟩
        · refine List.chain'_cons'.2 ⟨?_, ?_⟩
          · intro y hy
            rw [List.head?_cons, Option.mem_some_iff] at hy
            rw [← hy]
            exact Nat.lt_succ_self _
          · refine List.chain'_cons'.2 ⟨?_, hcurR.2⟩
            show ∀ y ∈ (R.map Bucket.freq).head?, nb.freq < y
            exact hnext
        · intro x hx y hy
          rw [List.head?_cons, Option.mem_some_iff] at hy
          have := hlink x hx cur.freq (by rw [List.head?_cons]; rfl)
          rw [← hy]
          exact this
    · intro b' hb'
      rw [hFeq] at hb'
      rcases hmemF b' hb' with hb' | ⟨rfl, hne⟩ | rfl | hb'
      · exact hc.bucketsNonempty b' (hmemL b' hb')
      · intro he0
        have he0' : cur.items.erase id = [] := he0
        rw [he0'] at hne
        simp at hne
      · exact List.cons_ne_nil _ _
      · exact hc.bucketsNonempty b' (hmemR b' hb')
    · intro b' hb'
      rw [hFeq] at hb'
      rcases hmemF b' hb' with hb' | ⟨rfl, _⟩ | rfl | hb'
      · exact hc.freqMin b' (hmemL b' hb')
      · exact hc.freqMin cur hmemcur
      · exact Nat.le_add_left 1 _
      · exact hc.freqMin b' (hmemR b' hb')
    · -- identities stay duplicate-free (the fresh one is new)
      rw [hFeq]
      have hnodupLR : (L.map Bucket.bid ++ R.map Bucket.bid).Nodup := by
        refine hbids.sublist ?_
        exact List.Sublist.append_left (List.sublist_cons_self _ _) _
      have hbase : (L.map Bucket.bid ++ nb.bid :: R.map Bucket.bid).Nodup := by
        rw [List.nodup_middle]
        refine List.nodup_cons.2 ⟨?_, hnodupLR⟩
        intro hm
        rcases List.mem_append.1 hm with hm | hm
        · exact hcntL hm
        · exact hcntR hm
      by_cases he : (cur.items.erase id).isEmpty = true
      · rw [if_pos he, List.map_append, List.map_cons]
        exact hbase
      · rw [if_neg he, List.map_append, List.map_cons, List.map_cons]
        have hcb : cur'.bid = cur.bid := rfl
        rw [hcb, List.nodup_middle]
        refine List.nodup_cons.2 ⟨?_, hbase⟩
        intro hm
        rcases List.mem_append.1 hm with hm | hm
        · exact hLp (hcurbid ▸ hm)
        · rcases List.mem_cons.1 hm with hm | hm
          · exact hcntc hm
          · exact hcR hm
    · intro b' hb'
      rw [hFeq] at hb'
      rcases hmemF b' hb' with hb' | ⟨rfl, _⟩ | rfl | hb'
      · exact Nat.lt_succ_of_lt (hc.bidsFresh b' (hmemL b' hb'))
      · exact Nat.lt_succ_of_lt (hc.bidsFresh cur hmemcur)
      · exact Nat.lt_succ_self _
      · exact Nat.lt_succ_of_lt (hc.bidsFresh b' (hmemR b' hb'))
    · intro b' hb'
      rw [hFeq] at hb'
      rcases hmemF b' hb' with hb' | ⟨rfl, _⟩ | rfl | hb'
      · exact hc.itemsNodup b' (hmemL b' hb')
      · exact (hc.itemsNodup cur hmemcur).erase id
      · exact List.nodup_singleton _
      · exact hc.itemsNodup b' (hmemR b' hb')
    · intro b' hb' m hm
      rw [hFeq] at hb'
      rcases hmemF b' hb' with hb' | ⟨rfl, _⟩ | rfl | hb'
      · refine Or.inr ⟨fun he => hidnotL b' hb' (he ▸ hm), ?_⟩
        exact hc.itemsParent b' (hmemL b' hb') m hm
      · have hm' : m ∈ cur.items := (cur.items.erase_subset id) hm
        refine Or.inr ⟨?_, hc.itemsParent cur hmemcur m hm'⟩
        intro he
        exact (hc.itemsNodup cur hmemcur).not_mem_erase (he ▸ hm)
      · rcases List.mem_singleton.1 hm with rfl
        exact Or.inl ⟨rfl, rfl⟩
      · refine Or.inr ⟨fun he => hidnotR b' hb' (he ▸ hm), ?_⟩
        exact hc.itemsParent b' (hmemR b' hb') m hm
    · intro b' hb' m hm hmne
      rw [hFeq] at hb'
      rcases hmemF b' hb' with hb' | ⟨rfl, _⟩ | rfl | hb'
      · exact hc.itemsFresh b' (hmemL b' hb') m hm
      · exact hc.itemsFresh cur hmemcur m ((cur.items.erase_subset id) hm)
      · exact absurd (List.mem_singleton.1 hm) hmne
      · exact hc.itemsFresh b' (hmemR b' hb') m hm
    · intro p hp hpne bid hbid
      obtain ⟨b0, hb0, hb0bid, hb0mem⟩ := hc.parentValid p hp bid hbid
      rw [hsplit] at hb0
      rw [hFeq]
      rcases List.mem_append.1 hb0 with hb0 | hb0
      · exact ⟨b0, List.mem_append_left _ hb0, hb0bid, hb0mem⟩
      · rcases List.mem_cons.1 hb0 with rfl | hb0
        · have hpmem : p.2 ∈ b0.items.erase id :=
            (List.Nodup.mem_erase_iff (hc.itemsNodup b0 hmemcur)).2 ⟨hpne, hb0mem⟩
          have hne : (b0.items.erase id).isEmpty = false := by
            cases hh : b0.items.erase id with
            | nil => rw [hh] at hpmem; cases hpmem
            | cons x xs => rfl
          rw [if_neg (by rw [hne]; exact Bool.false_ne_true)]
          exact ⟨cur', List.mem_append_right _ (List.mem_cons_self _ _), hb0bid, hpmem⟩
        · refine ⟨b0, ?_, hb0bid, hb0mem⟩
          by_cases he : (cur.items.erase id).isEmpty = true
          · rw [if_pos he]
            exact List.mem_append_right _ (List.mem_cons_of_mem _ hb0)
          · rw [if_neg he]
            exact List.mem_append_right _
              (List.mem_cons_of_mem _ (List.mem_cons_of_mem _ hb0))
    · rw [hFeq]
      refine ⟨nb, ?_, rfl, List.mem_singleton.2 rfl⟩
      by_cases he : (cur.items.erase id).isEmpty = true
      · rw [if_pos he]
        exact List.mem_append_right _ (List.mem_cons_self _ _)
      · rw [if_neg he]
        exact List.mem_append_right _
          (List.mem_cons_of_mem _ (List.mem_cons_self _ _))
  have hfreq : freqOf c' id = freqOf c id + 1 := by
    have hpre : freqOf c id = cur.freq := by
      unfold freqOf
      rw [hq]
      show ((c.freqs.find? (fun b => b.bid == pbid)).map Bucket.freq).getD 0 = cur.freq
      rw [hsplit, find?_bid_append L R cur pbid hcurbid hLp]
      rfl
    have hfind : (removeFreqList pbid id (insertAfterBid pbid nb c.freqs)).find?
        (fun x => x.bid == c.nextBucketId) = some nb := by
      rw [hFeq]
      by_cases he : (cur.items.erase id).isEmpty = true
      · rw [if_pos he]
        exact find?_bid_append L R nb c.nextBucketId rfl hcntL
      · rw [if_neg he]
        have : (L ++ cur' :: nb :: R) = (L ++ [cur']) ++ nb :: R := by simp
        rw [this]
        refine find?_bid_append (L ++ [cur']) R nb c.nextBucketId rfl ?_
        rw [List.map_append]
        intro hm
        rcases List.mem_append.1 hm with hm | hm
        · exact hcntL hm
        · simp at hm
          exact hcntc hm.symm
    have := freqOf_of_freqShape c id c.nextBucketId (c.nextBucketId + 1)
      (removeFreqList pbid id (insertAfterBid pbid nb c.freqs)) nb hheap hfind
    rw [← hcc] at this
    rw [this, hpre]
  refine ⟨hwb, hfreq, f1, f2, f3, f4, f5, f6, f7, f8, f9, ?_, f11⟩
  rw [f10]
  exact Option.some_ne_none _

/-- Soundness of `incrementEntryFrequency`: when it completes it
preserves structural well-formedness, bumps the entry's recorded access
count by exactly one, and changes nothing else. -/
theorem increment_sound (c : Cache) (id : Nat) (hc : WBcore c)
    (hid : id < c.nextEntryId) (hheap : id ∈ c.heap.map Prod.fst)
    (c' : Cache) (h : incrementEntryFrequency c id = some c') :
    IncrementPost c c' id := by
  cases hq : (heapGet c id).frequencyParent with
  | none =>
    simp only [incrementEntryFrequency, hq] at h
    cases hf : c.freqs.head? with
    | some b =>
      simp only [hf] at h
      obtain ⟨rest, hcf⟩ : ∃ rest, c.freqs = b :: rest := by
        cases hcf2 : c.freqs with
        | nil => rw [hcf2] at hf; cases hf
        | cons x xs =>
          rw [hcf2] at hf
          injection hf with hh
          exact ⟨xs, by rw [hh]⟩
      by_cases h1 : (b.freq == 1) = true
      · rw [if_pos h1] at h
        injection h with h'
        exact increment_reuse_front c id hc hid hheap hq b rest hcf
          (beq_iff_eq.1 h1) c' h'.symm
      · rw [if_neg h1] at h
        injection h with h'
        refine increment_push_front c id hc hid hheap hq ?_ c' h'.symm
        intro y hy
        rw [hcf, List.map_cons, List.head?_cons, Option.mem_some_iff] at hy
        have hge := hc.freqMin b (by rw [hcf]; exact List.mem_cons_self _ _)
        have hne : b.freq ≠ 1 := fun he => h1 (beq_iff_eq.2 he)
        omega
    | none =>
      simp only [hf] at h
      injection h with h'
      refine increment_push_front c id hc hid hheap hq ?_ c' h'.symm
      intro y hy
      rw [List.head?_eq_none_iff.1 hf] at hy
      cases hy
  | some pbid =>
    simp only [incrementEntryFrequency, hq] at h
    cases hfind : c.freqs.find? (fun b => b.bid == pbid) with
    | none => rw [hfind] at h; cases h
    | some cur =>
      simp only [hfind] at h
      have hcurmem : cur ∈ c.freqs := List.mem_of_find?_eq_some hfind
      have hcurbid : cur.bid = pbid := by simpa using List.find?_some hfind
      obtain ⟨L, R, hsplit, hL, hR⟩ :=
        split_of_mem_nodupBid c.freqs cur hcurmem hc.bidsNodup
      have hnext0 : nextOfBid pbid c.freqs = R.head? := by
        rw [hsplit, ← hcurbid, nextOfBid_split L R cur hL]
      cases hnx : R.head? with
      | some nxt =>
        rw [hnext0] at h
        simp only [hnx] at h
        obtain ⟨R', hcfR⟩ : ∃ R', R = nxt :: R' := by
          cases hcf2 : R with
          | nil => rw [hcf2] at hnx; cases hnx
          | cons x xs =>
            rw [hcf2] at hnx
            injection hnx with hh
            exact ⟨xs, by rw [hh]⟩
        by_cases h2 : (nxt.freq == cur.freq + 1) = true
        · rw [if_pos h2] at h
          injection h with h'
          exact increment_reuse_next c id pbid hc hid hheap hq L R' cur nxt
            (by rw [hsplit, hcfR]) hcurbid (beq_iff_eq.1 h2) c' h'.symm
        · rw [if_neg h2] at h
          injection h with h'
          refine increment_insert_after c id pbid hc hid hheap hq L R cur
            hsplit hcurbid ?_ c' h'.symm
          intro y hy
          rw [hcfR, List.map_cons, List.head?_cons, Option.mem_some_iff] at hy
          have hlt : cur.freq < nxt.freq := by
            have hs := hc.sorted
            rw [hsplit, hcfR, List.map_append, List.map_cons, List.map_cons] at hs
            have := (List.chain'_append.1 hs).2.1
            exact (List.chain'_cons.1 this).1
          have hne : nxt.freq ≠ cur.freq + 1 := fun he => h2 (beq_iff_eq.2 he)
          omega
      | none =>
        rw [hnext0] at h
        simp only [hnx] at h
        injection h with h'
        refine increment_insert_after c id pbid hc hid hheap hq L R cur
          hsplit hcurbid ?_ c' h'.symm
        intro y hy
        rw [List.head?_eq_none_iff.1 hnx] at hy
        cases hy

section Preservation

/-- LFU-touchedness of every mapped entry except possibly `id` (the state
inside `SetWithTTL` between inserting a fresh entry and registering its
first access). -/
def TouchedExcept (c : Cache) (id : Nat) : Prop :=
  c.evictionPolicy = EvictionPolicy.LeastFrequentUsed →
    ∀ p ∈ c.entries, p.2 ≠ id → (heapGet c p.2).frequencyParent ≠ none

theorem touchedExcept_transfer (c c' : Cache) (id : Nat)
    (hheap : c'.heap = c.heap) (hsub : ∀ p ∈ c'.entries, p ∈ c.entries)
    (hpol : c'.evictionPolicy = c.evictionPolicy)
    (ht : TouchedExcept c id) : TouchedExcept c' id := by
  intro hlfu p hp hne
  rw [heapGet_congr_heap c c' hheap]
  exact ht (hpol ▸ hlfu) p (hsub p hp) hne

theorem touched_of_touchedExcept (c : Cache) (id : Nat)
    (ht : TouchedExcept c id)
    (hid : c.evictionPolicy = EvictionPolicy.LeastFrequentUsed →
      (heapGet c id).frequencyParent ≠ none) :
    c.evictionPolicy = EvictionPolicy.LeastFrequentUsed →
      ∀ p ∈ c.entries, (heapGet c p.2).frequencyParent ≠ none := by
  intro hlfu p hp
  by_cases he : p.2 = id
  · rw [he]; exact hid hlfu
  · exact ht hlfu p hp he

theorem WB_def (c : Cache) (hcore : WBcore c)
    (ht : c.evictionPolicy = EvictionPolicy.LeastFrequentUsed →
      ∀ p ∈ c.entries, (heapGet c p.2).frequencyParent ≠ none) : WB c :=
  ⟨hcore, ht⟩

/-- `WBcore` does not mention the recency chain, statistics or memory
accounting, so updating them preserves it. -/
theorem WBcore_chain (c : Cache) (l : List Nat) (hc : WBcore c) :
    WBcore { c with chain := l } :=
  ⟨hc.sorted, hc.bucketsNonempty, hc.freqMin, hc.bidsNodup, hc.bidsFresh,
   hc.itemsNodup, hc.itemsParent, hc.itemsFresh, hc.heapNodup, hc.heapFresh,
   hc.mapKey, hc.mapKeysNodup, hc.mapFresh, hc.mapInHeap, hc.parentValid⟩

theorem WBcore_stats (c : Cache) (st : Statistics) (hc : WBcore c) :
    WBcore { c with stats := st } :=
  ⟨hc.sorted, hc.bucketsNonempty, hc.freqMin, hc.bidsNodup, hc.bidsFresh,
   hc.itemsNodup, hc.itemsParent, hc.itemsFresh, hc.heapNodup, hc.heapFresh,
   hc.mapKey, hc.mapKeysNodup, hc.mapFresh, hc.mapInHeap, hc.parentValid⟩

theorem WBcore_mem (c : Cache) (m : Int) (hc : WBcore c) :
    WBcore { c with memoryUsage := m } :=
  ⟨hc.sorted, hc.bucketsNonempty, hc.freqMin, hc.bidsNodup, hc.bidsFresh,
   hc.itemsNodup, hc.itemsParent, hc.itemsFresh, hc.heapNodup, hc.heapFresh,
   hc.mapKey, hc.mapKeysNodup, hc.mapFresh, hc.mapInHeap, hc.parentValid⟩

theorem mem_of_mem_filter_entries (c : Cache) (key : String)
    (p : String × Nat) (hp : p ∈ (mapDelete c key).entries) : p ∈ c.entries :=
  List.mem_of_mem_filter hp

/-- Removing a key from the primary map preserves well-formedness of the
core. -/
theorem WBcore_mapDelete (c : Cache) (key : String) (hc : WBcore c) :
    WBcore (mapDelete c key) := by
  have hsub := mem_of_mem_filter_entries c key
  refine ⟨hc.sorted, hc.bucketsNonempty, hc.freqMin, hc.bidsNodup, hc.bidsFresh,
    hc.itemsNodup, hc.itemsParent, hc.itemsFresh, hc.heapNodup, hc.heapFresh,
    ?_, ?_, ?_, ?_, ?_⟩
  · intro p hp
    exact hc.mapKey p (hsub p hp)
  · exact hc.mapKeysNodup.sublist ((List.filter_sublist _).map _)
  · intro p hp
    exact hc.mapFresh p (hsub p hp)
  · intro p hp
    exact hc.mapInHeap p (hsub p hp)
  · intro p hp bid hbid
    exact hc.parentValid p (hsub p hp) bid hbid

end Preservation

section RemoveFreqPreservation

theorem map_bid_of_removeFreqList_sub (tbid id : Nat) (l : List Bucket) :
    List.Sublist ((removeFreqList tbid id l).map Bucket.bid) (l.map Bucket.bid) := by
  unfold removeFreqList
  have h1 : List.Sublist
      ((l.map (fun b => if b.bid == tbid then { b with items := b.items.erase id } else b)).filter
        (fun b => !(b.bid == tbid && b.items.isEmpty)))
      (l.map (fun b => if b.bid == tbid then { b with items := b.items.erase id } else b)) :=
    List.filter_sublist _
  have h2 := h1.map Bucket.bid
  rw [List.map_map] at h2
  have h3 : l.map (Bucket.bid ∘ fun b =>
      if b.bid == tbid then { b with items := b.items.erase id } else b) =
      l.map Bucket.bid := by
    apply List.map_congr_left
    intro b _
    by_cases h : b.bid = tbid
    · simp [h]
    · simp only [Function.comp_apply, beq_eq_false_iff_ne.2 h,
        Bool.false_eq_true, if_false]
  rw [h3] at h2
  exact h2

/-- Characterisation of the buckets surviving
`removeEntryFromFrequencyList`. -/
theorem mem_removeFreqList (bid id : Nat) (l : List Bucket) (b : Bucket)
    (hb : b ∈ removeFreqList bid id l) :
    ∃ b0 ∈ l,
      (b = b0 ∨ (b0.bid = bid ∧ b = { b0 with items := b0.items.erase id })) ∧
      (b.bid = bid → b.items ≠ []) := by
  unfold removeFreqList at hb
  obtain ⟨hb1, hb2⟩ := List.mem_filter.1 hb
  obtain ⟨b0, hb0, hfb⟩ := List.mem_map.1 hb1
  refine ⟨b0, hb0, ?_, ?_⟩
  · by_cases h : b0.bid = bid
    · right
      refine ⟨h, ?_⟩
      rw [← hfb, beq_iff_eq.2 h, if_pos rfl]
    · left
      rw [← hfb, beq_eq_false_iff_ne.2 h]
      simp
  · intro hbid hemp
    rw [beq_iff_eq.2 hbid, hemp] at hb2
    simp at hb2

theorem mem_removeFreqList_of_ne (bid id : Nat) (l : List Bucket) (b : Bucket)
    (hb : b ∈ l) (hne : b.bid ≠ bid) : b ∈ removeFreqList bid id l := by
  unfold removeFreqList
  refine List.mem_filter.2 ⟨List.mem_map.2 ⟨b, hb, ?_⟩, ?_⟩
  · rw [beq_eq_false_iff_ne.2 hne]; simp
  · rw [beq_eq_false_iff_ne.2 hne]; simp

theorem mem_removeFreqList_of_eq (bid id : Nat) (l : List Bucket) (b : Bucket)
    (hb : b ∈ l) (heq : b.bid = bid) (hne : b.items.erase id ≠ []) :
    { b with items := b.items.erase id } ∈ removeFreqList bid id l := by
  unfold removeFreqList
  refine List.mem_filter.2 ⟨List.mem_map.2 ⟨b, hb, ?_⟩, ?_⟩
  · rw [beq_iff_eq.2 heq, if_pos rfl]
  · show (!({ b with items := b.items.erase id }.bid == bid &&
      ({ b with items := b.items.erase id }.items.isEmpty))) = true
    have : (b.items.erase id).isEmpty = false := by
      cases hc : b.items.erase id with
      | nil => exact absurd hc hne
      | cons x xs => rfl
    simp [this]

/-- Removing an entry from a frequency bucket preserves the core
invariant, provided no mapped entry both carries that parent bucket and
is the removed entry (so `parentValid` cannot be broken). -/
theorem WBcore_removeFreq (c : Cache) (bid id : Nat) (hc : WBcore c)
    (hpv : ∀ p ∈ c.entries,
      (heapGet c p.2).frequencyParent = some bid → p.2 ≠ id) :
    WBcore (removeEntryFromFrequencyList c bid id) := by
  have hget : ∀ j, heapGet (removeEntryFromFrequencyList c bid id) j = heapGet c j :=
    heapGet_congr_heap c _ rfl
  refine ⟨?_, ?_, ?_, ?_, ?_, ?_, ?_, ?_, hc.heapNodup, hc.heapFresh,
    ?_, hc.mapKeysNodup, hc.mapFresh, hc.mapInHeap, ?_⟩
  · exact hc.sorted.sublist (map_freq_of_removeFreqList_sub bid id c.freqs)
  · intro b hb
    obtain ⟨b0, hb0, hcases, hnonempty⟩ := mem_removeFreqList bid id c.freqs b hb
    rcases hcases with heq | ⟨hbid, heq⟩
    · rw [heq]; exact hc.bucketsNonempty b0 hb0
    · exact hnonempty (by rw [heq]; exact hbid)
  · intro b hb
    obtain ⟨b0, hb0, hcases, _⟩ := mem_removeFreqList bid id c.freqs b hb
    rcases hcases with heq | ⟨_, heq⟩
    · rw [heq]; exact hc.freqMin b0 hb0
    · rw [heq]; exact hc.freqMin b0 hb0
  · exact hc.bidsNodup.sublist (map_bid_of_removeFreqList_sub bid id c.freqs)
  · intro b hb
    obtain ⟨b0, hb0, hcases, _⟩ := mem_removeFreqList bid id c.freqs b hb
    rcases hcases with heq | ⟨_, heq⟩
    · rw [heq]; exact hc.bidsFresh b0 hb0
    · rw [heq]; exact hc.bidsFresh b0 hb0
  · intro b hb
    obtain ⟨b0, hb0, hcases, _⟩ := mem_removeFreqList bid id c.freqs b hb
    rcases hcases with heq | ⟨_, heq⟩
    · rw [heq]; exact hc.itemsNodup b0 hb0
    · rw [heq]; exact (hc.itemsNodup b0 hb0).erase id
  · intro b hb m hm
    obtain ⟨b0, hb0, hcases, _⟩ := mem_removeFreqList bid id c.freqs b hb
    rcases hcases with heq | ⟨_, heq⟩
    · rw [heq] at hm; rw [hget m, heq]; exact hc.itemsParent b0 hb0 m hm
    · rw [heq] at hm; rw [hget m, heq]
      exact hc.itemsParent b0 hb0 m (List.mem_of_mem_erase hm)
  · intro b hb m hm
    obtain ⟨b0, hb0, hcases, _⟩ := mem_removeFreqList bid id c.freqs b hb
    rcases hcases with heq | ⟨_, heq⟩
    · rw [heq] at hm; exact hc.itemsFresh b0 hb0 m hm
    · rw [heq] at hm; exact hc.itemsFresh b0 hb0 m (List.mem_of_mem_erase hm)
  · intro p hp
    rw [hget p.2]; exact hc.mapKey p hp
  · intro p hp bid' hbid'
    rw [hget p.2] at hbid'
    obtain ⟨b1, hb1, hb1bid, hb1in⟩ := hc.parentValid p hp bid' hbid'
    by_cases hcase : b1.bid = bid
    · have hbb : bid' = bid := by rw [← hb1bid, hcase]
      have hpne : p.2 ≠ id := hpv p hp (hbb ▸ hbid')
      have hmem : p.2 ∈ b1.items.erase id := (List.mem_erase_of_ne hpne).2 hb1in
      refine ⟨{ b1 with items := b1.items.erase id },
        mem_removeFreqList_of_eq bid id c.freqs b1 hb1 hcase ?_, hb1bid, hmem⟩
      intro hnil
      rw [hnil] at hmem
      cases hmem
    · exact ⟨b1, mem_removeFreqList_of_ne bid id c.freqs b1 hb1 hcase, hb1bid, hb1in⟩

end RemoveFreqPreservation

section HeapSetPreservation

theorem map_set_notmem (l : List (Nat × EntryData)) (id : Nat) (e : EntryData)
    (hmem : id ∉ l.map Prod.fst) :
    l.map (fun p => if p.1 == id then (id, e) else p) = l := by
  induction l with
  | nil => rfl
  | cons p rest ih =>
    rw [List.map_cons] at hmem
    have h1 : p.1 ≠ id := fun he => hmem (he ▸ List.mem_cons_self _ _)
    have h2 : id ∉ rest.map Prod.fst := fun hm => hmem (List.mem_cons_of_mem _ hm)
    rw [List.map_cons, beq_eq_false_iff_ne.2 h1]
    simp only [Bool.false_eq_true, if_false]
    rw [ih h2]

theorem heapSet_notmem (c : Cache) (id : Nat) (e : EntryData)
    (hmem : id ∉ c.heap.map Prod.fst) : heapSet c id e = c := by
  unfold heapSet
  rw [map_set_notmem c.heap id e hmem]

theorem heapSet_parent_pointwise (c : Cache) (id : Nat) (e : EntryData)
    (hpar : e.frequencyParent = (heapGet c id).frequencyParent) (j : Nat) :
    (heapGet (heapSet c id e) j).frequencyParent =
      (heapGet c j).frequencyParent := by
  by_cases hj : j = id
  · subst hj
    by_cases hmem : j ∈ c.heap.map Prod.fst
    · rw [heapGet_heapSet_same c j e hmem, hpar]
    · rw [heapSet_notmem c j e hmem]
  · rw [heapGet_heapSet_other c id e j hj]

theorem heapSet_key_pointwise (c : Cache) (id : Nat) (e : EntryData)
    (hkey : e.key = (heapGet c id).key) (j : Nat) :
    (heapGet (heapSet c id e) j).key = (heapGet c j).key := by
  by_cases hj : j = id
  · subst hj
    by_cases hmem : j ∈ c.heap.map Prod.fst
    · rw [heapGet_heapSet_same c j e hmem, hkey]
    · rw [heapSet_notmem c j e hmem]
  · rw [heapGet_heapSet_other c id e j hj]

/-- In-place mutation of a heap entry that keeps the entry's key and
frequency parent (e.g. refreshing a timestamp or expiration) preserves
the core invariant. -/
theorem WBcore_heapSet (c : Cache) (id : Nat) (e : EntryData)
    (hpar : e.frequencyParent = (heapGet c id).frequencyParent)
    (hkey : e.key = (heapGet c id).key)
    (hc : WBcore c) : WBcore (heapSet c id e) := by
  refine ⟨hc.sorted, hc.bucketsNonempty, hc.freqMin, hc.bidsNodup, hc.bidsFresh,
    hc.itemsNodup, ?_, hc.itemsFresh, ?_, ?_, ?_, hc.mapKeysNodup, hc.mapFresh,
    ?_, ?_⟩
  · intro b hb m hm
    rw [heapSet_parent_pointwise c id e hpar m]
    exact hc.itemsParent b hb m hm
  · show ((heapSet c id e).heap.map Prod.fst).Nodup
    rw [heapSet_map_fst]
    exact hc.heapNodup
  · intro p hp
    obtain ⟨p0, hp0, hfp⟩ := List.mem_map.1 hp
    by_cases h : p0.1 = id
    · rw [← hfp, beq_iff_eq.2 h, if_pos rfl]
      exact h ▸ hc.heapFresh p0 hp0
    · rw [← hfp, beq_eq_false_iff_ne.2 h]
      simp only [Bool.false_eq_true, if_false]
      exact hc.heapFresh p0 hp0
  · intro p hp
    rw [heapSet_key_pointwise c id e hkey p.2]
    exact hc.mapKey p hp
  · intro p hp
    show p.2 ∈ (heapSet c id e).heap.map Prod.fst
    rw [heapSet_map_fst]
    exact hc.mapInHeap p hp
  · intro p hp bid hbid
    rw [heapSet_parent_pointwise c id e hpar p.2] at hbid
    exact hc.parentValid p hp bid hbid

theorem WB_heapSet (c : Cache) (id : Nat) (e : EntryData)
    (hpar : e.frequencyParent = (heapGet c id).frequencyParent)
    (hkey : e.key = (heapGet c id).key)
    (hc : WB c) : WB (heapSet c id e) := by
  refine ⟨WBcore_heapSet c id e hpar hkey hc.toWBcore, ?_⟩
  intro hlfu p hp
  rw [heapSet_parent_pointwise c id e hpar p.2]
  exact hc.lfuTouched hlfu p hp

/-- Transfer of well-formedness along an operation that keeps the heap,
shrinks the primary map and keeps the policy. -/
theorem WB_transfer (c c' : Cache) (hcore : WBcore c')
    (hheap : c'.heap = c.heap) (hsub : ∀ p ∈ c'.entries, p ∈ c.entries)
    (hpol : c'.evictionPolicy = c.evictionPolicy) (hc : WB c) : WB c' := by
  refine ⟨hcore, ?_⟩
  intro hlfu p hp
  rw [heapGet_congr_heap c c' hheap]
  exact hc.lfuTouched (hpol ▸ hlfu) p (hsub p hp)

end HeapSetPreservation

section EvictPreservation

/-- Two states that agree on the frequency index, heap, primary map and
identity counters satisfy the same core invariant. -/
theorem WBcore_congr_fields (c c' : Cache)
    (hfreqs : c'.freqs = c.freqs) (hheap : c'.heap = c.heap)
    (hentries : c'.entries = c.entries)
    (hnb : c'.nextBucketId = c.nextBucketId)
    (hne : c'.nextEntryId = c.nextEntryId) (hc : WBcore c) : WBcore c' := by
  have hget : ∀ j, heapGet c' j = heapGet c j := heapGet_congr_heap c c' hheap
  refine ⟨?_, ?_, ?_, ?_, ?_, ?_, ?_, ?_, ?_, ?_, ?_, ?_, ?_, ?_, ?_⟩
  · rw [hfreqs]; exact hc.sorted
  · rw [hfreqs]; exact hc.bucketsNonempty
  · rw [hfreqs]; exact hc.freqMin
  · rw [hfreqs]; exact hc.bidsNodup
  · rw [hfreqs, hnb]; exact hc.bidsFresh
  · rw [hfreqs]; exact hc.itemsNodup
  · rw [hfreqs]
    intro b hb m hm
    rw [hget m]
    exact hc.itemsParent b hb m hm
  · rw [hfreqs, hne]; exact hc.itemsFresh
  · rw [hheap]; exact hc.heapNodup
  · rw [hheap, hne]; exact hc.heapFresh
  · rw [hentries]
    intro p hp
    rw [hget p.2]
    exact hc.mapKey p hp
  · rw [hentries]; exact hc.mapKeysNodup
  · rw [hentries, hne]; exact hc.mapFresh
  · rw [hentries, hheap]; exact hc.mapInHeap
  · rw [hentries, hfreqs]
    intro p hp bid hbid
    rw [hget p.2] at hbid
    exact hc.parentValid p hp bid hbid

/-- One LFU eviction step preserves the core invariant. -/
theorem WBcore_evictLfuOne (bid : Nat) (c : Cache) (id : Nat) (hc : WBcore c) :
    WBcore (evictLfuOne bid c id) := by
  have h1 : WBcore (removeExistingEntryReferences c id) := WBcore_chain c _ hc
  have h2 : WBcore (mapDelete (removeExistingEntryReferences c id)
      (heapGet c id).key) := WBcore_mapDelete _ _ h1
  have h3 : WBcore (removeEntryFromFrequencyList
      (mapDelete (removeExistingEntryReferences c id) (heapGet c id).key)
      bid id) := by
    apply WBcore_removeFreq _ _ _ h2
    intro p hp _ hpid
    have hpmem : p ∈ c.entries := List.mem_of_mem_filter hp
    have hf : (!(p.1 == (heapGet c id).key)) = true := (List.mem_filter.1 hp).2
    rw [Bool.not_eq_true'] at hf
    rw [beq_eq_false_iff_ne] at hf
    have hkey := hc.mapKey p hpmem
    rw [hpid] at hkey
    exact hf hkey.symm
  simp only [evictLfuOne]
  split
  · refine WBcore_congr_fields _ _ ?_ ?_ ?_ ?_ ?_ h3 <;> rfl
  · refine WBcore_congr_fields _ _ ?_ ?_ ?_ ?_ ?_ h3 <;> rfl

theorem evictLfuOne_frame (bid : Nat) (c : Cache) (id : Nat) :
    (evictLfuOne bid c id).heap = c.heap ∧
    (∀ p ∈ (evictLfuOne bid c id).entries, p ∈ c.entries) ∧
    (evictLfuOne bid c id).evictionPolicy = c.evictionPolicy := by
  simp only [evictLfuOne]
  split
  · exact ⟨rfl, fun p hp => List.mem_of_mem_filter hp, rfl⟩
  · exact ⟨rfl, fun p hp => List.mem_of_mem_filter hp, rfl⟩

theorem WB_evictLfuOne (bid : Nat) (c : Cache) (id : Nat) (hc : WB c) :
    WB (evictLfuOne bid c id) :=
  WB_transfer c _ (WBcore_evictLfuOne bid c id hc.toWBcore)
    (evictLfuOne_frame bid c id).1 (evictLfuOne_frame bid c id).2.1
    (evictLfuOne_frame bid c id).2.2 hc

theorem WB_foldl_evictLfuOne (bid : Nat) (items : List Nat) :
    ∀ c, WB c → WB (items.foldl (evictLfuOne bid) c) := by
  induction items with
  | nil => exact fun c hc => hc
  | cons a rest ih => exact fun c hc => ih _ (WB_evictLfuOne bid c a hc)

/-- `evict` preserves well-formedness. -/
theorem WB_evict (c : Cache) (hc : WB c) : WB (evict c) := by
  simp only [evict]
  split
  · exact hc
  · split
    · split
      · exact WB_foldl_evictLfuOne _ _ c hc
      · exact hc
    · split
      · rename_i tailId hl
        refine WB_transfer c _ ?_ ?_ ?_ ?_ hc
        · have hbase : WBcore (mapDelete (removeExistingEntryReferences c tailId)
              (heapGet c tailId).key) :=
            WBcore_mapDelete _ _ (WBcore_chain c (c.chain.erase tailId) hc.toWBcore)
          split
          · refine WBcore_congr_fields _ _ ?_ ?_ ?_ ?_ ?_ hbase <;> rfl
          · refine WBcore_congr_fields _ _ ?_ ?_ ?_ ?_ ?_ hbase <;> rfl
        · split
          · rfl
          · rfl
        · split
          · exact fun p hp => List.mem_of_mem_filter hp
          · exact fun p hp => List.mem_of_mem_filter hp
        · split
          · rfl
          · rfl
      · exact hc

/-- The memory-bound eviction loop preserves well-formedness whenever it
completes. -/
theorem WB_memEvictLoop (n : Nat) (c c' : Cache)
    (h : memEvictLoop n c = some c') (hc : WB c) : WB c' := by
  induction n generalizing c with
  | zero =>
    unfold memEvictLoop at h
    split at h
    · cases h
    · injection h with h'; exact h' ▸ hc
  | succ n ih =>
    unfold memEvictLoop at h
    split at h
    · exact ih (evict c) h (WB_evict c hc)
    · injection h with h'; exact h' ▸ hc

/-- The private deletion preserves well-formedness whenever it completes. -/
theorem WB_deleteKey (c : Cache) (key : String) (c' : Cache) (bres : Bool)
    (h : deleteKey c key = some (c', bres)) (hc : WB c) : WB c' := by
  unfold deleteKey at h
  cases hk : lookupKey c key with
  | none => rw [hk] at h; injection h with h'; cases h'; exact hc
  | some id =>
    have hkey : (heapGet c id).key = key := hc.mapKey (key, id) (lookupKey_mem c key id hk)
    rw [hk] at h
    simp only at h
    by_cases hp : c.evictionPolicy = EvictionPolicy.LeastFrequentUsed
    · rw [if_pos hp] at h
      cases hq : (heapGet c id).frequencyParent with
      | none => rw [hq] at h; cases h
      | some pbid =>
        rw [hq] at h
        injection h with h'
        cases h'
        by_cases hm : (c.maxMemoryUsage != NoMaxMemoryUsage) = true
        · rw [if_pos hm]
          refine WB_transfer c _ ?_ rfl (fun p hp1 => List.mem_of_mem_filter hp1) rfl hc
          have hc1 : WBcore { c with memoryUsage :=
              c.memoryUsage - (sizeInBytes (heapGet c id) : Int) } :=
            WBcore_mem c _ hc.toWBcore
          refine WBcore_removeFreq (mapDelete (removeExistingEntryReferences
            { c with memoryUsage := c.memoryUsage - (sizeInBytes (heapGet c id) : Int) }
            id) key) pbid id
            (WBcore_mapDelete _ _ (WBcore_chain _ _ hc1)) ?_
          intro p hp1 _ hpid
          have hpmem : p ∈ c.entries := List.mem_of_mem_filter hp1
          have hf : (!(p.1 == key)) = true := (List.mem_filter.1 hp1).2
          rw [Bool.not_eq_true'] at hf
          rw [beq_eq_false_iff_ne] at hf
          have hk2 := hc.mapKey p hpmem
          rw [hpid, hkey] at hk2
          exact hf hk2.symm
        · rw [if_neg hm]
          refine WB_transfer c _ ?_ rfl (fun p hp1 => List.mem_of_mem_filter hp1) rfl hc
          refine WBcore_removeFreq (mapDelete (removeExistingEntryReferences c id) key)
            pbid id (WBcore_mapDelete _ _ (WBcore_chain _ _ hc.toWBcore)) ?_
          intro p hp1 _ hpid
          have hpmem : p ∈ c.entries := List.mem_of_mem_filter hp1
          have hf : (!(p.1 == key)) = true := (List.mem_filter.1 hp1).2
          rw [Bool.not_eq_true'] at hf
          rw [beq_eq_false_iff_ne] at hf
          have hk2 := hc.mapKey p hpmem
          rw [hpid, hkey] at hk2
          exact hf hk2.symm
    · rw [if_neg hp] at h
      injection h with h'
      cases h'
      by_cases hm : (c.maxMemoryUsage != NoMaxMemoryUsage) = true
      · rw [if_pos hm]
        refine WB_transfer c _ ?_ rfl (fun p hp1 => List.mem_of_mem_filter hp1) rfl hc
        exact WBcore_mapDelete _ _ (WBcore_chain _ _ (WBcore_mem c _ hc.toWBcore))
      · rw [if_neg hm]
        refine WB_transfer c _ ?_ rfl (fun p hp1 => List.mem_of_mem_filter hp1) rfl hc
        exact WBcore_mapDelete _ _ (WBcore_chain _ _ hc.toWBcore)

end EvictPreservation

section PublicOpPreservation

theorem WB_stats_update (c : Cache) (st : Statistics) (hc : WB c) :
    WB { c with stats := st } :=
  WB_transfer c _ (WBcore_stats c st hc.toWBcore) rfl (fun _ hp => hp) rfl hc

theorem WB_chain_update (c : Cache) (l : List Nat) (hc : WB c) :
    WB { c with chain := l } :=
  WB_transfer c _ (WBcore_chain c l hc.toWBcore) rfl (fun _ hp => hp) rfl hc

theorem WB_move (c : Cache) (id : Nat) (hc : WB c) :
    WB (moveExistingEntryToHead c id) := by
  unfold moveExistingEntryToHead
  split
  · exact hc
  · exact WB_chain_update (removeExistingEntryReferences c id) _
      (WB_chain_update c (c.chain.erase id) hc)

/-- `Clear` preserves well-formedness (the untouched frequency index is
still sorted and its members still point back, because the heap is kept;
all map-indexed conjuncts hold vacuously over the emptied map). -/
theorem WB_clearOp (c : Cache) (hc : WB c) : WB (clearOp c) := by
  refine ⟨⟨hc.sorted, hc.bucketsNonempty, hc.freqMin, hc.bidsNodup, hc.bidsFresh,
    hc.itemsNodup, ?_, hc.itemsFresh, hc.heapNodup, hc.heapFresh,
    ?_, ?_, ?_, ?_, ?_⟩, ?_⟩
  · intro b hb m hm
    exact hc.itemsParent b hb m hm
  · intro p hp
    exact absurd hp (List.not_mem_nil p)
  · exact List.nodup_nil
  · intro p hp
    exact absurd hp (List.not_mem_nil p)
  · intro p hp
    exact absurd hp (List.not_mem_nil p)
  · intro p hp
    exact absurd hp (List.not_mem_nil p)
  · intro _ p hp
    exact absurd hp (List.not_mem_nil p)

/-- `Expire` preserves well-formedness: it only rewrites an expiration
field in place. -/
theorem WB_expireOp (c : Cache) (now : Int) (key : String) (ttl : Int)
    (hc : WB c) : WB (expireOp c now key ttl).fst := by
  cases hk : lookupKey c key with
  | none => simp only [expireOp, hk]; exact hc
  | some id =>
    simp only [expireOp, hk]
    split
    · exact hc
    · exact WB_heapSet c id _ rfl rfl hc

theorem WB_of_incrementPost (c c' : Cache) (id : Nat)
    (hpost : IncrementPost c c' id) (hc : WB c) : WB c' := by
  obtain ⟨hcore, _, hentries, _, _, _, hpol, _, _, _, _, hid, hother⟩ := hpost
  refine ⟨hcore, ?_⟩
  intro hlfu p hp
  by_cases he : p.2 = id
  · rw [he]; exact hid
  · rw [hother p.2 he]
    exact hc.lfuTouched (hpol ▸ hlfu) p (hentries ▸ hp)

/-- `Get` preserves well-formedness whenever it completes. -/
theorem WB_getOp (c : Cache) (now : Int) (key : String) (c' : Cache)
    (v : Option Nat) (h : getOp c now key = some (c', v)) (hc : WB c) :
    WB c' := by
  unfold getOp at h
  cases hk : lookupKey c key with
  | none =>
    rw [hk] at h
    injection h with h'
    injection h' with h1 h2
    exact h1 ▸ WB_stats_update c _ hc
  | some id =>
    have hmem : (key, id) ∈ c.entries := lookupKey_mem c key id hk
    rw [hk] at h
    simp only at h
    split at h
    · -- expired: count and delete
      cases hd : deleteKey
          { c with stats := { c.stats with expiredKeys := c.stats.expiredKeys + 1 } }
          key with
      | none => rw [hd] at h; cases h
      | some pr =>
        obtain ⟨c2, b2⟩ := pr
        rw [hd] at h
        injection h with h'
        injection h' with h1 h2
        exact h1 ▸ WB_deleteKey _ key c2 b2 hd (WB_stats_update c _ hc)
    · -- live
      split at h
      · -- LRU: timestamp refresh, then promotion unless already head
        split at h
        · injection h with h'
          injection h' with h1 h2
          exact h1 ▸ WB_heapSet _ id _ rfl rfl (WB_stats_update c _ hc)
        · injection h with h'
          injection h' with h1 h2
          exact h1 ▸ WB_move _ id (WB_heapSet _ id _ rfl rfl (WB_stats_update c _ hc))
      · split at h
        · -- LFU: record the access
          cases hi : incrementEntryFrequency
              { c with stats := { c.stats with hits := c.stats.hits + 1 } } id with
          | none => rw [hi] at h; cases h
          | some c2 =>
            rw [hi] at h
            injection h with h'
            injection h' with h1 h2
            have hpost := increment_sound
              { c with stats := { c.stats with hits := c.stats.hits + 1 } } id
              (WBcore_stats c { c.stats with hits := c.stats.hits + 1 } hc.toWBcore)
              (hc.mapFresh (key, id) hmem)
              (hc.mapInHeap (key, id) hmem) c2 hi
            exact h1 ▸ WB_of_incrementPost _ c2 id hpost (WB_stats_update c _ hc)
        · -- FIFO
          injection h with h'
          injection h' with h1 h2
          exact h1 ▸ WB_stats_update c _ hc

end PublicOpPreservation

section CorePreservation

theorem WBcore_move (c : Cache) (id : Nat) (hc : WBcore c) :
    WBcore (moveExistingEntryToHead c id) := by
  unfold moveExistingEntryToHead
  split
  · exact hc
  · exact WBcore_chain (removeExistingEntryReferences c id) _
      (WBcore_chain c (c.chain.erase id) hc)

theorem move_nextEntryId (c : Cache) (id : Nat) :
    (moveExistingEntryToHead c id).nextEntryId = c.nextEntryId := by
  unfold moveExistingEntryToHead
  split <;> rfl

theorem move_heap (c : Cache) (id : Nat) :
    (moveExistingEntryToHead c id).heap = c.heap := by
  unfold moveExistingEntryToHead
  split <;> rfl

theorem WBcore_memIf (c : Cache) (cond : Prop) [Decidable cond] (m : Int)
    (hc : WBcore c) :
    WBcore (if cond then { c with memoryUsage := m } else c) := by
  split
  · exact WBcore_mem c m hc
  · exact hc

theorem heapGet_memIf (c : Cache) (cond : Prop) [Decidable cond] (m : Int)
    (j : Nat) :
    heapGet (if cond then { c with memoryUsage := m } else c) j = heapGet c j := by
  split <;> rfl

theorem memIf_nextEntryId (c : Cache) (cond : Prop) [Decidable cond] (m : Int) :
    (if cond then { c with memoryUsage := m } else c).nextEntryId =
      c.nextEntryId := by
  split <;> rfl

theorem memIf_heap (c : Cache) (cond : Prop) [Decidable cond] (m : Int) :
    (if cond then { c with memoryUsage := m } else c).heap = c.heap := by
  split <;> rfl

theorem heapSet_nextEntryId (c : Cache) (id : Nat) (e : EntryData) :
    (heapSet c id e).nextEntryId = c.nextEntryId := rfl

theorem mem_map_fst_heapSet (c : Cache) (id : Nat) (e : EntryData) (j : Nat)
    (hj : j ∈ c.heap.map Prod.fst) : j ∈ (heapSet c id e).heap.map Prod.fst := by
  rw [heapSet_map_fst]
  exact hj

theorem foldl_evictLfuOne_hframe (bid : Nat) (items : List Nat) :
    ∀ c, (items.foldl (evictLfuOne bid) c).heap = c.heap ∧
      (items.foldl (evictLfuOne bid) c).nextEntryId = c.nextEntryId := by
  induction items with
  | nil => exact fun c => ⟨rfl, rfl⟩
  | cons a rest ih =>
    intro c
    have h1 : (evictLfuOne bid c a).heap = c.heap ∧
        (evictLfuOne bid c a).nextEntryId = c.nextEntryId := by
      simp only [evictLfuOne]
      split
      · exact ⟨rfl, rfl⟩
      · exact ⟨rfl, rfl⟩
    obtain ⟨ha, hb⟩ := ih (evictLfuOne bid c a)
    exact ⟨ha.trans h1.1, hb.trans h1.2⟩

theorem evict_hframe (c : Cache) :
    (evict c).heap = c.heap ∧ (evict c).nextEntryId = c.nextEntryId := by
  simp only [evict]
  split
  · exact ⟨rfl, rfl⟩
  · split
    · split
      · exact foldl_evictLfuOne_hframe _ _ c
      · exact ⟨rfl, rfl⟩
    · split
      · split
        · exact ⟨rfl, rfl⟩
        · exact ⟨rfl, rfl⟩
      · exact ⟨rfl, rfl⟩

theorem memEvictLoop_hframe (n : Nat) (c c' : Cache)
    (h : memEvictLoop n c = some c') :
    c'.heap = c.heap ∧ c'.nextEntryId = c.nextEntryId := by
  induction n generalizing c with
  | zero =>
    unfold memEvictLoop at h
    split at h
    · cases h
    · injection h with h'; subst h'; exact ⟨rfl, rfl⟩
  | succ n ih =>
    unfold memEvictLoop at h
    split at h
    · obtain ⟨h1, h2⟩ := ih (evict c) h
      exact ⟨h1.trans (evict_hframe c).1, h2.trans (evict_hframe c).2⟩
    · injection h with h'; subst h'; exact ⟨rfl, rfl⟩

theorem WBcore_foldl_evictLfuOne (bid : Nat) (items : List Nat) :
    ∀ c, WBcore c → WBcore (items.foldl (evictLfuOne bid) c) := by
  induction items with
  | nil => exact fun _ hc => hc
  | cons a rest ih => exact fun c hc => ih _ (WBcore_evictLfuOne bid c a hc)

/-- `evict` preserves the core invariant. -/
theorem WBcore_evict (c : Cache) (hc : WBcore c) : WBcore (evict c) := by
  simp only [evict]
  split
  · exact hc
  · split
    · split
      · exact WBcore_foldl_evictLfuOne _ _ c hc
      · exact hc
    · split
      · rename_i tailId hl
        have hbase : WBcore (mapDelete (removeExistingEntryReferences c tailId)
            (heapGet c tailId).key) :=
          WBcore_mapDelete _ _ (WBcore_chain c (c.chain.erase tailId) hc)
        split
        · refine WBcore_congr_fields _ _ ?_ ?_ ?_ ?_ ?_ hbase <;> rfl
        · refine WBcore_congr_fields _ _ ?_ ?_ ?_ ?_ ?_ hbase <;> rfl
      · exact hc

theorem WBcore_memEvictLoop (n : Nat) (c c' : Cache)
    (h : memEvictLoop n c = some c') (hc : WBcore c) : WBcore c' := by
  induction n generalizing c with
  | zero =>
    unfold memEvictLoop at h
    split at h
    · cases h
    · injection h with h'; exact h' ▸ hc
  | succ n ih =>
    unfold memEvictLoop at h
    split at h
    · exact ih (evict c) h (WBcore_evict c hc)
    · injection h with h'; exact h' ▸ hc

end CorePreservation

section CorePreservationOps

theorem WBcore_deleteKey (c : Cache) (key : String) (c' : Cache) (bres : Bool)
    (h : deleteKey c key = some (c', bres)) (hc : WBcore c) : WBcore c' := by
  unfold deleteKey at h
  cases hk : lookupKey c key with
  | none => rw [hk] at h; injection h with h'; cases h'; exact hc
  | some id =>
    have hkey : (heapGet c id).key = key := hc.mapKey (key, id) (lookupKey_mem c key id hk)
    rw [hk] at h
    simp only at h
    by_cases hp : c.evictionPolicy = EvictionPolicy.LeastFrequentUsed
    · rw [if_pos hp] at h
      cases hq : (heapGet c id).frequencyParent with
      | none => rw [hq] at h; cases h
      | some pbid =>
        rw [hq] at h
        injection h with h'
        cases h'
        by_cases hm : (c.maxMemoryUsage != NoMaxMemoryUsage) = true
        · rw [if_pos hm]
          refine WBcore_removeFreq (mapDelete (removeExistingEntryReferences
            { c with memoryUsage := c.memoryUsage - (sizeInBytes (heapGet c id) : Int) }
            id) key) pbid id
            (WBcore_mapDelete _ _ (WBcore_chain _ _ (WBcore_mem c _ hc))) ?_
          intro p hp1 _ hpid
          have hpmem : p ∈ c.entries := List.mem_of_mem_filter hp1
          have hf : (!(p.1 == key)) = true := (List.mem_filter.1 hp1).2
          rw [Bool.not_eq_true'] at hf
          rw [beq_eq_false_iff_ne] at hf
          have hk2 := hc.mapKey p hpmem
          rw [hpid, hkey] at hk2
          exact hf hk2.symm
        · rw [if_neg hm]
          refine WBcore_removeFreq (mapDelete (removeExistingEntryReferences c id) key)
            pbid id (WBcore_mapDelete _ _ (WBcore_chain _ _ hc)) ?_
          intro p hp1 _ hpid
          have hpmem : p ∈ c.entries := List.mem_of_mem_filter hp1
          have hf : (!(p.1 == key)) = true := (List.mem_filter.1 hp1).2
          rw [Bool.not_eq_true'] at hf
          rw [beq_eq_false_iff_ne] at hf
          have hk2 := hc.mapKey p hpmem
          rw [hpid, hkey] at hk2
          exact hf hk2.symm
    · rw [if_neg hp] at h
      injection h with h'
      cases h'
      by_cases hm : (c.maxMemoryUsage != NoMaxMemoryUsage) = true
      · rw [if_pos hm]
        exact WBcore_mapDelete _ _ (WBcore_chain _ _ (WBcore_mem c _ hc))
      · rw [if_neg hm]
        exact WBcore_mapDelete _ _ (WBcore_chain _ _ hc)

theorem WBcore_clearOp (c : Cache) (hc : WBcore c) : WBcore (clearOp c) := by
  refine ⟨hc.sorted, hc.bucketsNonempty, hc.freqMin, hc.bidsNodup, hc.bidsFresh,
    hc.itemsNodup, ?_, hc.itemsFresh, hc.heapNodup, hc.heapFresh,
    ?_, ?_, ?_, ?_, ?_⟩
  · intro b hb m hm
    exact hc.itemsParent b hb m hm
  · intro p hp
    exact absurd hp (List.not_mem_nil p)
  · exact List.nodup_nil
  · intro p hp
    exact absurd hp (List.not_mem_nil p)
  · intro p hp
    exact absurd hp (List.not_mem_nil p)
  · intro p hp
    exact absurd hp (List.not_mem_nil p)

theorem WBcore_expireOp (c : Cache) (now : Int) (key : String) (ttl : Int)
    (hc : WBcore c) : WBcore (expireOp c now key ttl).fst := by
  cases hk : lookupKey c key with
  | none => simp only [expireOp, hk]; exact hc
  | some id =>
    simp only [expireOp, hk]
    split
    · exact hc
    · exact WBcore_heapSet c id _ rfl rfl hc

theorem WBcore_getOp (c : Cache) (now : Int) (key : String) (c' : Cache)
    (v : Option Nat) (h : getOp c now key = some (c', v)) (hc : WBcore c) :
    WBcore c' := by
  unfold getOp at h
  cases hk : lookupKey c key with
  | none =>
    rw [hk] at h
    injection h with h'
    injection h' with h1 h2
    exact h1 ▸ WBcore_stats c _ hc
  | some id =>
    have hmem : (key, id) ∈ c.entries := lookupKey_mem c key id hk
    rw [hk] at h
    simp only at h
    split at h
    · cases hd : deleteKey
          { c with stats := { c.stats with expiredKeys := c.stats.expiredKeys + 1 } }
          key with
      | none => rw [hd] at h; cases h
      | some pr =>
        obtain ⟨c2, b2⟩ := pr
        rw [hd] at h
        injection h with h'
        injection h' with h1 h2
        exact h1 ▸ WBcore_deleteKey _ key c2 b2 hd (WBcore_stats c _ hc)
    · split at h
      · split at h
        · injection h with h'
          injection h' with h1 h2
          exact h1 ▸ WBcore_heapSet _ id _ rfl rfl (WBcore_stats c _ hc)
        · injection h with h'
          injection h' with h1 h2
          exact h1 ▸ WBcore_move _ id (WBcore_heapSet _ id _ rfl rfl (WBcore_stats c _ hc))
      · split at h
        · cases hi : incrementEntryFrequency
              { c with stats := { c.stats with hits := c.stats.hits + 1 } } id with
          | none => rw [hi] at h; cases h
          | some c2 =>
            rw [hi] at h
            injection h with h'
            injection h' with h1 h2
            have hpost := increment_sound
              { c with stats := { c.stats with hits := c.stats.hits + 1 } } id
              (WBcore_stats c { c.stats with hits := c.stats.hits + 1 } hc)
              (hc.mapFresh (key, id) hmem)
              (hc.mapInHeap (key, id) hmem) c2 hi
            exact h1 ▸ hpost.1
        · injection h with h'
          injection h' with h1 h2
          exact h1 ▸ WBcore_stats c _ hc

theorem heapGet_cons_ne (c c2 : Cache) (id : Nat) (e : EntryData)
    (hh : c2.heap = (id, e) :: c.heap) (m : Nat) (hne : m ≠ id) :
    heapGet c2 m = heapGet c m := by
  unfold heapGet
  rw [hh, List.find?_cons_of_neg]
  intro hcontra
  exact hne ((beq_iff_eq.1 hcontra).symm)

theorem heapGet_cons_self (c c2 : Cache) (id : Nat) (e : EntryData)
    (hh : c2.heap = (id, e) :: c.heap) : heapGet c2 id = e := by
  unfold heapGet
  rw [hh, List.find?_cons_of_pos]
  · rfl
  · exact beq_iff_eq.2 rfl

theorem lookupKey_none_not_bound (c : Cache) (key : String)
    (hk : lookupKey c key = none) : ∀ p ∈ c.entries, p.1 ≠ key := by
  unfold lookupKey at hk
  cases hf : c.entries.find? (fun p => p.1 == key) with
  | some p => rw [hf] at hk; cases hk
  | none =>
    intro p hp he
    have h2 := List.find?_eq_none.1 hf p hp
    exact h2 (beq_iff_eq.2 he)

end CorePreservationOps

section InsertPreservation

/-- The core invariant survives inserting a fresh entry (with no
frequency parent yet) at a fresh identity for an unbound key. -/
theorem WBcore_insert (c : Cache) (key : String) (value : Nat) (now : Int)
    (hk : lookupKey c key = none) (hc : WBcore c) :
    WBcore { c with
      heap := (c.nextEntryId,
        { key := key, value := value, relevantTimestamp := now,
          expiration := 0, frequencyParent := none }) :: c.heap,
      nextEntryId := c.nextEntryId + 1,
      chain := c.nextEntryId :: c.chain,
      entries := (key, c.nextEntryId) :: c.entries } := by
  refine ⟨hc.sorted, hc.bucketsNonempty, hc.freqMin, hc.bidsNodup, hc.bidsFresh,
    hc.itemsNodup, ?_, ?_, ?_, ?_, ?_, ?_, ?_, ?_, ?_⟩
  · intro b hb m hm
    have hmne : m ≠ c.nextEntryId := Nat.ne_of_lt (hc.itemsFresh b hb m hm)
    rw [heapGet_cons_ne c _ c.nextEntryId _ rfl m hmne]
    exact hc.itemsParent b hb m hm
  · intro b hb m hm
    exact Nat.lt_succ_of_lt (hc.itemsFresh b hb m hm)
  · show (c.nextEntryId :: c.heap.map Prod.fst).Nodup
    refine List.nodup_cons.2 ⟨?_, hc.heapNodup⟩
    intro hmem
    obtain ⟨p, hp, hfp⟩ := List.mem_map.1 hmem
    exact absurd (hfp ▸ hc.heapFresh p hp) (lt_irrefl _)
  · intro p hp
    rcases List.mem_cons.1 hp with heq | hmem
    · rw [heq]; exact Nat.lt_succ_self _
    · exact Nat.lt_succ_of_lt (hc.heapFresh p hmem)
  · intro p hp
    rcases List.mem_cons.1 hp with heq | hmem
    · rw [heq]
      rw [heapGet_cons_self c _ c.nextEntryId _ rfl]
    · have hne : p.2 ≠ c.nextEntryId := Nat.ne_of_lt (hc.mapFresh p hmem)
      rw [heapGet_cons_ne c _ c.nextEntryId _ rfl p.2 hne]
      exact hc.mapKey p hmem
  · show (key :: c.entries.map Prod.fst).Nodup
    refine List.nodup_cons.2 ⟨?_, hc.mapKeysNodup⟩
    intro hmem
    obtain ⟨p, hp, hfp⟩ := List.mem_map.1 hmem
    exact lookupKey_none_not_bound c key hk p hp hfp
  · intro p hp
    rcases List.mem_cons.1 hp with heq | hmem
    · rw [heq]; exact Nat.lt_succ_self _
    · exact Nat.lt_succ_of_lt (hc.mapFresh p hmem)
  · intro p hp
    rcases List.mem_cons.1 hp with heq | hmem
    · rw [heq]
      show c.nextEntryId ∈ c.nextEntryId :: c.heap.map Prod.fst
      exact List.mem_cons_self _ _
    · show p.2 ∈ c.nextEntryId :: c.heap.map Prod.fst
      exact List.mem_cons_of_mem _ (hc.mapInHeap p hmem)
  · intro p hp bid hbid
    rcases List.mem_cons.1 hp with heq | hmem
    · rw [heq] at hbid
      rw [heapGet_cons_self c _ c.nextEntryId _ rfl] at hbid
      exact Option.noConfusion hbid
    · have hne : p.2 ≠ c.nextEntryId := Nat.ne_of_lt (hc.mapFresh p hmem)
      rw [heapGet_cons_ne c _ c.nextEntryId _ rfl p.2 hne] at hbid
      exact hc.parentValid p hmem bid hbid

/-- The common tail of `SetWithTTL`: expiration rewrite, bound-triggered
eviction, memory loop, LFU access recording.  Preserves the core
invariant whenever it completes. -/
theorem WBcore_setWithTTLFinish (fuel : Nat) (c : Cache) (id : Nat)
    (now ttl : Int) (c' : Cache)
    (h : setWithTTLFinish fuel c id now ttl = some c')
    (hc : WBcore c) (hid : id < c.nextEntryId)
    (hheap : id ∈ c.heap.map Prod.fst) : WBcore c' := by
  have hc1 : WBcore (heapSet c id { heapGet c id with
      expiration := if ttl != NoExpiration then now + ttl else NoExpiration }) :=
    WBcore_heapSet c id _ rfl rfl hc
  have hid1 : id < (heapSet c id { heapGet c id with
      expiration := if ttl != NoExpiration then now + ttl else NoExpiration }).nextEntryId :=
    hid
  have hheap1 : id ∈ (heapSet c id { heapGet c id with
      expiration := if ttl != NoExpiration then now + ttl else NoExpiration }).heap.map
      Prod.fst := by
    rw [heapSet_map_fst]
    exact hheap
  simp only [setWithTTLFinish] at h
  set c1 := heapSet c id { heapGet c id with
      expiration := if ttl != NoExpiration then now + ttl else NoExpiration } with hc1def
  split at h
  · injection h with h'; exact h' ▸ hc1
  · have hc2 : WBcore (if c1.maxSize ≠ NoMaxSize ∧ c1.entries.length > c1.maxSize
        then evict c1 else c1) := by
      split
      · exact WBcore_evict c1 hc1
      · exact hc1
    have hid2 : id < (if c1.maxSize ≠ NoMaxSize ∧ c1.entries.length > c1.maxSize
        then evict c1 else c1).nextEntryId := by
      split
      · rw [(evict_hframe c1).2]; exact hid1
      · exact hid1
    have hheap2 : id ∈ (if c1.maxSize ≠ NoMaxSize ∧ c1.entries.length > c1.maxSize
        then evict c1 else c1).heap.map Prod.fst := by
      split
      · rw [(evict_hframe c1).1]; exact hheap1
      · exact hheap1
    set c2 := if c1.maxSize ≠ NoMaxSize ∧ c1.entries.length > c1.maxSize
        then evict c1 else c1 with hc2def
    cases hm : (if c2.maxMemoryUsage ≠ NoMaxMemoryUsage ∧
        c2.memoryUsage > (c2.maxMemoryUsage : Int)
        then memEvictLoop fuel c2 else some c2) with
    | none => rw [hm] at h; cases h
    | some c3 =>
      rw [hm] at h
      have hWB3 : WBcore c3 ∧ c3.nextEntryId = c2.nextEntryId ∧ c3.heap = c2.heap := by
        split at hm
        · exact ⟨WBcore_memEvictLoop fuel c2 c3 hm hc2,
            (memEvictLoop_hframe fuel c2 c3 hm).2,
            (memEvictLoop_hframe fuel c2 c3 hm).1⟩
        · injection hm with hm'
          rw [← hm']
          exact ⟨hc2, rfl, rfl⟩
      obtain ⟨hc3, hne3, hh3⟩ := hWB3
      replace h : (if c3.evictionPolicy = EvictionPolicy.LeastFrequentUsed
          then incrementEntryFrequency c3 id else some c3) = some c' := h
      split at h
      · exact (increment_sound c3 id hc3 (by rw [hne3]; exact hid2)
          (by rw [hh3]; exact hheap2) c' h).1
      · injection h with h'; exact h' ▸ hc3

end InsertPreservation

section SetPreservation

/-- `SetWithTTL` preserves the core invariant whenever it completes. -/
theorem WBcore_setWithTTL (fuel : Nat) (c : Cache) (now : Int) (key : String)
    (value : Nat) (ttl : Int) (c' : Cache)
    (h : setWithTTL fuel c now key value ttl = some c') (hc : WBcore c) :
    WBcore c' := by
  unfold setWithTTL at h
  cases hk : lookupKey c key with
  | none =>
    rw [hk] at h
    simp only at h
    split at h
    · injection h with h'; exact h' ▸ hc
    · split at h
      · refine WBcore_setWithTTLFinish _ _ c.nextEntryId now ttl c' h ?_ ?_ ?_
        · refine WBcore_congr_fields _ _ ?_ ?_ ?_ ?_ ?_
            (WBcore_insert c key value now hk hc) <;> rfl
        · exact Nat.lt_succ_self _
        · show c.nextEntryId ∈ c.nextEntryId :: c.heap.map Prod.fst
          exact List.mem_cons_self _ _
      · refine WBcore_setWithTTLFinish _ _ c.nextEntryId now ttl c' h ?_ ?_ ?_
        · exact WBcore_insert c key value now hk hc
        · exact Nat.lt_succ_self _
        · show c.nextEntryId ∈ c.nextEntryId :: c.heap.map Prod.fst
          exact List.mem_cons_self _ _
  | some id =>
    have hmem : (key, id) ∈ c.entries := lookupKey_mem c key id hk
    rw [hk] at h
    simp only at h
    split at h
    · cases hd : deleteKey c key with
      | none => rw [hd] at h; cases h
      | some pr =>
        obtain ⟨c2, b2⟩ := pr
        rw [hd] at h
        injection h with h'
        exact h' ▸ WBcore_deleteKey c key c2 b2 hd hc
    · have hbaseT : WBcore (heapSet
          { c with memoryUsage := c.memoryUsage - (sizeInBytes (heapGet c id) : Int) }
          id { heapGet c id with value := value, relevantTimestamp := now }) :=
        WBcore_heapSet _ id _ rfl rfl (WBcore_mem c _ hc)
      have hbaseF : WBcore (heapSet c id
          { heapGet c id with value := value, relevantTimestamp := now }) :=
        WBcore_heapSet c id _ rfl rfl hc
      split at h <;> split at h <;>
        refine WBcore_setWithTTLFinish _ _ id now ttl c' h
          (WBcore_move _ id ?_) ?_ ?_ <;>
        first
          | (rw [move_nextEntryId]; exact hc.mapFresh (key, id) hmem)
          | (rw [move_heap]
             exact mem_map_fst_heapSet _ id _ id (hc.mapInHeap (key, id) hmem))
          | exact hbaseT
          | exact hbaseF
          | (refine WBcore_congr_fields _ _ ?_ ?_ ?_ ?_ ?_ hbaseT <;> rfl)
          | (refine WBcore_congr_fields _ _ ?_ ?_ ?_ ?_ ?_ hbaseF <;> rfl)

theorem WBcore_setAll (fuel : Nat) (now : Int) (kvs : List (String × Nat)) :
    ∀ c c', setAll fuel c now kvs = some c' → WBcore c → WBcore c' := by
  induction kvs with
  | nil =>
    intro c c' h hc
    injection h with h'
    exact h' ▸ hc
  | cons kv rest ih =>
    intro c c' h hc
    obtain ⟨k, v⟩ := kv
    unfold setAll at h
    cases hs : setOp fuel c now k v with
    | none => rw [hs] at h; cases h
    | some c1 =>
      rw [hs] at h
      exact ih c1 c' h (WBcore_setWithTTL fuel c now k v NoExpiration c1 hs hc)

theorem WBcore_getByKeys (now : Int) (keys : List String) :
    ∀ c c' out, getByKeys c now keys = some (c', out) → WBcore c → WBcore c' := by
  induction keys with
  | nil =>
    intro c c' out h hc
    injection h with h'
    injection h' with h1 h2
    exact h1 ▸ hc
  | cons k rest ih =>
    intro c c' out h hc
    unfold getByKeys at h
    cases hg : getOp c now k with
    | none => rw [hg] at h; cases h
    | some pr =>
      obtain ⟨c1, v⟩ := pr
      rw [hg] at h
      simp only at h
      cases hrest : getByKeys c1 now rest with
      | none => rw [hrest] at h; cases h
      | some pr2 =>
        obtain ⟨c2, out2⟩ := pr2
        rw [hrest] at h
        injection h with h'
        injection h' with h1 h2
        exact h1 ▸ ih c1 c2 out2 hrest (WBcore_getOp c now k c1 v hg hc)

theorem WBcore_getAllGo (now : Int) (l : List (String × Nat)) :
    ∀ c acc c' out, getAllGo now c l acc = some (c', out) → WBcore c →
      WBcore c' := by
  induction l with
  | nil =>
    intro c acc c' out h hc
    injection h with h'
    injection h' with h1 h2
    exact h1 ▸ WBcore_stats c _ hc
  | cons p rest ih =>
    intro c acc c' out h hc
    obtain ⟨k, id⟩ := p
    unfold getAllGo at h
    simp only at h
    by_cases hexp : entryExpired (heapGet c id) now = true
    · rw [if_pos hexp] at h
      cases hd : deleteKey c k with
      | none => rw [hd] at h; cases h
      | some pr =>
        obtain ⟨c1, b1⟩ := pr
        rw [hd] at h
        exact ih c1 acc c' out h (WBcore_deleteKey c k c1 b1 hd hc)
    · rw [if_neg hexp] at h
      exact ih c _ c' out h hc

theorem WBcore_deleteAll (keys : List String) :
    ∀ c c' n, deleteAll c keys = some (c', n) → WBcore c → WBcore c' := by
  induction keys with
  | nil =>
    intro c c' n h hc
    injection h with h'
    injection h' with h1 h2
    exact h1 ▸ hc
  | cons k rest ih =>
    intro c c' n h hc
    unfold deleteAll at h
    cases hd : deleteKey c k with
    | none => rw [hd] at h; cases h
    | some pr =>
      obtain ⟨c1, b1⟩ := pr
      rw [hd] at h
      simp only at h
      cases hrest : deleteAll c1 rest with
      | none => rw [hrest] at h; cases h
      | some pr2 =>
        obtain ⟨c2, n2⟩ := pr2
        rw [hrest] at h
        injection h with h'
        injection h' with h1 h2
        exact h1 ▸ ih c1 c2 n2 hrest (WBcore_deleteKey c k c1 b1 hd hc)

/-- Every completed public operation preserves the core invariant. -/
theorem WBcore_step (op : PublicOp) (now : Int) (fuel : Nat) (c c' : Cache)
    (h : stepOp op now fuel c = some c') (hc : WBcore c) : WBcore c' := by
  cases op with
  | set k v => exact WBcore_setWithTTL fuel c now k v NoExpiration c' h hc
  | setWithTTL k v ttl => exact WBcore_setWithTTL fuel c now k v ttl c' h hc
  | setAll kvs => exact WBcore_setAll fuel now kvs c c' h hc
  | get k =>
    simp only [stepOp] at h
    cases hg : getOp c now k with
    | none => rw [hg] at h; cases h
    | some pr =>
      obtain ⟨c1, v⟩ := pr
      rw [hg] at h
      injection h with h'
      exact h' ▸ WBcore_getOp c now k c1 v hg hc
  | getValue k =>
    simp only [stepOp, getValue] at h
    cases hg : getOp c now k with
    | none => rw [hg] at h; cases h
    | some pr =>
      obtain ⟨c1, v⟩ := pr
      rw [hg] at h
      injection h with h'
      exact h' ▸ WBcore_getOp c now k c1 v hg hc
  | getByKeys ks =>
    simp only [stepOp] at h
    cases hg : getByKeys c now ks with
    | none => rw [hg] at h; cases h
    | some pr =>
      obtain ⟨c1, out⟩ := pr
      rw [hg] at h
      injection h with h'
      exact h' ▸ WBcore_getByKeys now ks c c1 out hg hc
  | getAll =>
    simp only [stepOp] at h
    cases hg : getAll c now with
    | none => rw [hg] at h; cases h
    | some pr =>
      obtain ⟨c1, out⟩ := pr
      rw [hg] at h
      injection h with h'
      exact h' ▸ WBcore_getAllGo now c.entries c [] c1 out hg hc
  | getKeysByPattern p lim =>
    injection h with h'
    exact h' ▸ hc
  | delete k =>
    simp only [stepOp, deleteOp] at h
    cases hd : deleteKey c k with
    | none => rw [hd] at h; cases h
    | some pr =>
      obtain ⟨c1, b1⟩ := pr
      rw [hd] at h
      injection h with h'
      exact h' ▸ WBcore_deleteKey c k c1 b1 hd hc
  | deleteAll ks =>
    simp only [stepOp] at h
    cases hd : deleteAll c ks with
    | none => rw [hd] at h; cases h
    | some pr =>
      obtain ⟨c1, n1⟩ := pr
      rw [hd] at h
      injection h with h'
      exact h' ▸ WBcore_deleteAll ks c c1 n1 hd hc
  | deleteKeysByPattern p =>
    simp only [stepOp, deleteKeysByPattern] at h
    cases hd : deleteAll c (getKeysByPattern c now p 0) with
    | none => rw [hd] at h; cases h
    | some pr =>
      obtain ⟨c1, n1⟩ := pr
      rw [hd] at h
      injection h with h'
      exact h' ▸ WBcore_deleteAll _ c c1 n1 hd hc
  | count =>
    injection h with h'
    exact h' ▸ hc
  | clear =>
    injection h with h'
    exact h' ▸ WBcore_clearOp c hc
  | ttl k =>
    injection h with h'
    exact h' ▸ hc
  | expire k d =>
    injection h with h'
    exact h' ▸ WBcore_expireOp c now k d hc
  | stats =>
    injection h with h'
    exact h' ▸ hc

/-- A freshly constructed cache satisfies the core invariant. -/
theorem WBcore_newCache (policy : EvictionPolicy) (maxSize maxMemoryUsage : Nat) :
    WBcore (newCache policy maxSize maxMemoryUsage) := by
  refine ⟨?_, ?_, ?_, ?_, ?_, ?_, ?_, ?_, ?_, ?_, ?_, ?_, ?_, ?_, ?_⟩ <;>
    first
      | exact List.chain'_nil
      | exact List.nodup_nil
      | (intro p hp; exact absurd hp (List.not_mem_nil p))
      | (intro p hp m hm; exact absurd hp (List.not_mem_nil p))
      | (intro p hp m hm; exact absurd hp (List.not_mem_nil p))

/-- Every reachable state satisfies the core invariant. -/
theorem WBcore_reachable (policy : EvictionPolicy) (maxSize maxMemoryUsage : Nat)
    (c : Cache) (h : Reachable policy maxSize maxMemoryUsage c) : WBcore c := by
  induction h with
  | init => exact WBcore_newCache policy maxSize maxMemoryUsage
  | step op now fuel _ hstep ih => exact WBcore_step op now fuel _ _ hstep ih

end SetPreservation

section ClaimC7

theorem eq_of_mem_nodupBid (freqs : List Bucket)
    (hnd : (freqs.map Bucket.bid).Nodup) (b b' : Bucket)
    (hb : b ∈ freqs) (hb' : b' ∈ freqs) (heq : b'.bid = b.bid) : b' = b := by
  obtain ⟨L, R, hsplit, hL, hR⟩ := split_of_mem_nodupBid freqs b hb hnd
  rw [hsplit] at hb'
  rcases List.mem_append.1 hb' with hmem | hmem
  · exact absurd (heq ▸ List.mem_map_of_mem Bucket.bid hmem) hL
  · rcases List.mem_cons.1 hmem with h1 | h1
    · exact h1
    · exact absurd (heq ▸ List.mem_map_of_mem Bucket.bid h1) hR

/-- C7: on an LFU cache, every reachable state — the fresh cache and the
state after each completed public operation — satisfies the frequency
index invariants: every mapped entry that has been touched (its
`frequencyParent` is set) points to exactly one bucket of the index and
that bucket's entry set contains it, no bucket of the index has an empty
entry set, and the bucket frequencies are strictly increasing from the
front of the index to the back. -/
theorem lfu_invariants_reachable (maxSize maxMemoryUsage : Nat) (c : Cache)
    (h : Reachable EvictionPolicy.LeastFrequentUsed maxSize maxMemoryUsage c) :
    lfuInvariant c := by
  have hc : WBcore c := WBcore_reachable _ _ _ c h
  refine ⟨?_, hc.bucketsNonempty, hc.sorted⟩
  intro p hp bid hbid
  obtain ⟨b, hb, hbbid, hbin⟩ := hc.parentValid p hp bid hbid
  refine ⟨b, hb, hbbid, hbin, ?_⟩
  intro b' hb' hin'
  have h1 : (heapGet c p.2).frequencyParent = some b'.bid :=
    hc.itemsParent b' hb' p.2 hin'
  rw [hbid] at h1
  injection h1 with h2
  exact eq_of_mem_nodupBid c.freqs hc.bidsNodup b b' hb hb' (h2.symm.trans hbbid.symm)

theorem lfu_invariants_reachable_witness :
    lfuInvariant (newCache EvictionPolicy.LeastFrequentUsed 10 0) :=
  lfu_invariants_reachable 10 0 _ Reachable.init

end ClaimC7

section ClaimC3

theorem move_chain_head (c : Cache) (id : Nat) :
    (moveExistingEntryToHead c id).chain.head? = some id := by
  unfold moveExistingEntryToHead
  split
  · rename_i heq
    rw [heq]
    rfl
  · rfl

theorem move_stats (c : Cache) (id : Nat) :
    (moveExistingEntryToHead c id).stats = c.stats := by
  unfold moveExistingEntryToHead
  split <;> rfl

theorem move_entries (c : Cache) (id : Nat) :
    (moveExistingEntryToHead c id).entries = c.entries := by
  unfold moveExistingEntryToHead
  split <;> rfl

theorem move_freqs (c : Cache) (id : Nat) :
    (moveExistingEntryToHead c id).freqs = c.freqs := by
  unfold moveExistingEntryToHead
  split <;> rfl

/-- Completion-conditioned `Get` semantics under the structural
invariant (the expired case is stated only for completing calls, which
excludes the reachable panic at `untouchedLfuState`): a miss increments
the misses counter and returns not-found; a completing call on a present
but expired key deletes the entry, increments the expired counter and
returns not-found; a live key increments the hits counter, returns the
stored value, leaves the map unchanged, is promoted to the head of the
recency chain exactly under LRU (under FIFO and LFU the chain is
untouched), and gains one frequency access exactly under LFU (under FIFO
and LRU the frequency index is untouched). -/
theorem get_semantics (c : Cache) (now : Int) (key : String) (hc : WBcore c) :
    (lookupKey c key = none →
      getOp c now key =
        some ({ c with stats := { c.stats with misses := c.stats.misses + 1 } },
          none)) ∧
    (∀ id, lookupKey c key = some id →
      entryExpired (heapGet c id) now = true →
      ∀ c' v, getOp c now key = some (c', v) →
        v = none ∧ lookupKey c' key = none ∧
        c'.stats.expiredKeys = c.stats.expiredKeys + 1 ∧
        c'.stats.hits = c.stats.hits ∧ c'.stats.misses = c.stats.misses) ∧
    (∀ id, lookupKey c key = some id →
      entryExpired (heapGet c id) now = false →
      ∀ c' v, getOp c now key = some (c', v) →
        v = some (heapGet c id).value ∧
        c'.stats.hits = c.stats.hits + 1 ∧
        c'.stats.misses = c.stats.misses ∧
        c'.stats.expiredKeys = c.stats.expiredKeys ∧
        c'.entries = c.entries ∧
        (c.evictionPolicy = EvictionPolicy.LeastRecentlyUsed →
          c'.chain.head? = some id ∧ c'.freqs = c.freqs) ∧
        (c.evictionPolicy = EvictionPolicy.FirstInFirstOut →
          c'.chain = c.chain ∧ c'.freqs = c.freqs) ∧
        (c.evictionPolicy = EvictionPolicy.LeastFrequentUsed →
          c'.chain = c.chain ∧ freqOf c' id = freqOf c id + 1)) := by
  refine ⟨?_, ?_, ?_⟩
  · intro hk
    unfold getOp
    rw [hk]
  · intro id hk hexp c' v h
    unfold getOp at h
    rw [hk] at h
    simp only at h
    rw [if_pos hexp] at h
    cases hd : deleteKey
        { c with stats := { c.stats with expiredKeys := c.stats.expiredKeys + 1 } }
        key with
    | none => rw [hd] at h; cases h
    | some pr =>
      obtain ⟨c2, b2⟩ := pr
      rw [hd] at h
      injection h with h'
      injection h' with h1 h2
      subst h1
      subst h2
      refine ⟨rfl, (deleteKey_lookup _ key c2 b2 hd).1, ?_, ?_, ?_⟩
      · rw [deleteKey_stats _ key c2 b2 hd]
      · rw [deleteKey_stats _ key c2 b2 hd]
      · rw [deleteKey_stats _ key c2 b2 hd]
  · intro id hk hexp c' v h
    have hmem : (key, id) ∈ c.entries := lookupKey_mem c key id hk
    unfold getOp at h
    rw [hk] at h
    simp only at h
    have hnexp : ¬ entryExpired (heapGet c id) now = true := by
      rw [hexp]
      exact Bool.false_ne_true
    rw [if_neg hnexp] at h
    by_cases hlru : c.evictionPolicy = EvictionPolicy.LeastRecentlyUsed
    · rw [if_pos hlru] at h
      split at h
      · rename_i hhead
        injection h with h'
        injection h' with h1 h2
        subst h1
        subst h2
        refine ⟨rfl, rfl, rfl, rfl, rfl, ?_, ?_, ?_⟩
        · intro _
          exact ⟨hhead, rfl⟩
        · intro hf
          rw [hlru] at hf
          exact absurd hf (by decide)
        · intro hf
          rw [hlru] at hf
          exact absurd hf (by decide)
      · injection h with h'
        injection h' with h1 h2
        subst h1
        subst h2
        refine ⟨rfl, ?_, ?_, ?_, ?_, ?_, ?_, ?_⟩
        · rw [move_stats]; rfl
        · rw [move_stats]; rfl
        · rw [move_stats]; rfl
        · rw [move_entries]; rfl
        · intro _
          refine ⟨move_chain_head _ id, ?_⟩
          rw [move_freqs]; rfl
        · intro hf
          rw [hlru] at hf
          exact absurd hf (by decide)
        · intro hf
          rw [hlru] at hf
          exact absurd hf (by decide)
    · rw [if_neg hlru] at h
      by_cases hlfu : c.evictionPolicy = EvictionPolicy.LeastFrequentUsed
      · rw [if_pos hlfu] at h
        cases hi : incrementEntryFrequency
            { c with stats := { c.stats with hits := c.stats.hits + 1 } } id with
        | none => rw [hi] at h; cases h
        | some c2 =>
          rw [hi] at h
          injection h with h'
          injection h' with h1 h2
          subst h1
          subst h2
          have hpost := increment_sound
            { c with stats := { c.stats with hits := c.stats.hits + 1 } } id
            (WBcore_stats c { c.stats with hits := c.stats.hits + 1 } hc)
            (hc.mapFresh (key, id) hmem)
            (hc.mapInHeap (key, id) hmem) c2 hi
          obtain ⟨_, hfreq, hentries, hchain, hstats, _, _, _, _, _, _, _, _⟩ :=
            hpost
          refine ⟨rfl, ?_, ?_, ?_, ?_, ?_, ?_, ?_⟩
          · rw [hstats]
          · rw [hstats]
          · rw [hstats]
          · rw [hentries]
          · intro hl
            exact absurd hl hlru
          · intro hf
            rw [hlfu] at hf
            exact absurd hf (by decide)
          · intro _
            exact ⟨by rw [hchain], hfreq⟩
      · rw [if_neg hlfu] at h
        injection h with h'
        injection h' with h1 h2
        subst h1
        subst h2
        refine ⟨rfl, rfl, rfl, rfl, rfl, ?_, ?_, ?_⟩
        · intro hl
          exact absurd hl hlru
        · intro _
          exact ⟨rfl, rfl⟩
        · intro hf
          exact absurd hf hlfu

theorem get_semantics_witness :
    WBcore (newCache EvictionPolicy.LeastFrequentUsed 3 0) ∧
    getOp (newCache EvictionPolicy.LeastFrequentUsed 3 0) 0 "k" =
      some ({ newCache EvictionPolicy.LeastFrequentUsed 3 0 with
        stats := { (newCache EvictionPolicy.LeastFrequentUsed 3 0).stats with
          misses :=
            (newCache EvictionPolicy.LeastFrequentUsed 3 0).stats.misses + 1 } },
        none) := by
  have hc : WBcore (newCache EvictionPolicy.LeastFrequentUsed 3 0) :=
    WBcore_newCache EvictionPolicy.LeastFrequentUsed 3 0
  exact ⟨hc, (get_semantics (newCache EvictionPolicy.LeastFrequentUsed 3 0)
    0 "k" hc).1 rfl⟩

end ClaimC3

section PanicCorner

/-- A reachable LFU state holding a mapped entry that was never
registered in the frequency index: with both bounds disabled
(`WithMaxSize(0)`, no memory bound), `SetWithTTL` returns before
`incrementEntryFrequency` (the early return of the Set family source),
so one completed `Set` leaves the entry's `frequencyParent` nil. -/
def untouchedLfuState : Cache :=
  (runOps (newCache EvictionPolicy.LeastFrequentUsed NoMaxSize NoMaxMemoryUsage)
    [(0, PublicOp.setWithTTL "k" 1 5)]).getD
    (newCache EvictionPolicy.LeastFrequentUsed)

/-- C3 fails on the code: `Get` on a present but expired key does not
always delete it, count it expired and return not-found.  On the
reachable state `untouchedLfuState` — one completed `SetWithTTL` on a
fresh LFU cache with both bounds disabled — the mapped entry has no
frequency bucket; once the entry has expired, `Get`'s expired branch
calls the private deletion, which dereferences the entry's nil frequency
parent and panics.  In the model the operation does not complete
(`getOp` is `none`). -/
theorem get_expired_panics :
    runOps (newCache EvictionPolicy.LeastFrequentUsed NoMaxSize NoMaxMemoryUsage)
      [(0, PublicOp.setWithTTL "k" 1 5)] = some untouchedLfuState ∧
    lookupKey untouchedLfuState "k" = some 0 ∧
    entryExpired (heapGet untouchedLfuState 0) 10 = true ∧
    (heapGet untouchedLfuState 0).frequencyParent = none ∧
    getOp untouchedLfuState 10 "k" = none :=
  ⟨rfl, rfl, rfl, rfl, rfl⟩

/-- C4 fails on the code: `SetWithTTL` with a zero TTL on a present key
is not always a delete-if-exists that reports no error.  On the
reachable state `untouchedLfuState`, the delete path dereferences the
mapped entry's nil frequency parent (the entry was never registered in
the frequency index) and panics, whatever fuel the eviction loop is
given.  In the model the operation does not complete (`setWithTTL` is
`none` for every fuel). -/
theorem setWithTTL_zero_ttl_panics :
    runOps (newCache EvictionPolicy.LeastFrequentUsed NoMaxSize NoMaxMemoryUsage)
      [(0, PublicOp.setWithTTL "k" 1 5)] = some untouchedLfuState ∧
    lookupKey untouchedLfuState "k" = some 0 ∧
    ∀ fuel, setWithTTL fuel untouchedLfuState 0 "k" 1 0 = none :=
  ⟨rfl, rfl, fun _ => rfl⟩

end PanicCorner
